import Mathlib

/-!
A verification development for the JSON-to-SQLite normalization engine of the
probikegarage repository (`src/sqlite_converter.py`).

The Python code is shallowly embedded as executable Lean definitions:

* `Installation`, `SrcComponent`, `SrcBike`, `Docs` model the loaded JSON
  documents (a missing document is modelled as the empty list, exactly as the
  loader substitutes `[]`).
* `findUB` / `find_ultimate_bike_id` embed the recursive installation-graph
  walk `find_ultimate_bike_id` (lines 50-78).  Python's unbounded recursion is
  rendered with an explicit fuel parameter; the development proves that the
  result is stable once the fuel exceeds the number of distinct component ids,
  which is exactly the termination bound of the Python function (the visited
  set grows strictly on every level of recursion).
* Python truthiness checks such as `installation.get("bike_id")` are rendered
  by `optStrTruthy` (present and non-empty) and `dictTruthy` (present and
  non-empty mapping).
* The record normalizer (lines 80-306) is embedded as a fold over the source
  lists threading the explicit state `NState` (emitted records plus the two
  dedup sets `processed_component_ids` / `processed_usage_ids`).
* The `component_summary` view and the `component_lifetime_analysis` table
  (lines 388-462) are embedded as pure functions over the emitted record sets;
  SQLite's `JULIANDAY` and `DATE` are abstracted as parameters of the
  lifetime analysis.
-/

/-- One entry of an `installations[]` array of a component-detail document.
`target_id` and `bike_id` are `Option` because the JSON values may be null;
string fields read with `[...]` in Python are required fields here. -/
structure Installation where
  id : String
  user_id : String
  component_id : String
  target_type : String
  target_id : Option String
  bike_id : Option String
  added_at : Option String
  removed_at : Option String
  ride_tags : List String
  included_ride_tags : List String
  excluded_ride_tags : List String
deriving DecidableEq

/-- Python truthiness of an optional string: `bool(x)` is true iff the value
is present and non-empty.  This is the test `installation.get("bike_id")`
performs. -/
def optStrTruthy : Option String → Bool
  | some s => s != ""
  | none => false

/-- Fuel-indexed embedding of `find_ultimate_bike_id` (lines 50-78 of
`sqlite_converter.py`).  The Python loop over the filtered installation list,
with its two early returns, is rendered by `List.findSome?`: the first
installation producing a result wins.  The visited set is the list `visited`;
it is extended functionally, matching `visited.copy()` in the source, so
sibling branches are independent. -/
def findUB (installs : List Installation) : Nat → String → List String → Option String
  | 0, _, _ => none
  | fuel + 1, cid, visited =>
    if visited.contains cid then none
    else
      (installs.filter (fun i => i.component_id == cid)).findSome? (fun inst =>
        if inst.target_type == "bike" && optStrTruthy inst.bike_id then inst.bike_id
        else if inst.target_type == "component" && optStrTruthy inst.target_id then
          let r := findUB installs fuel (inst.target_id.getD "") (cid :: visited)
          if optStrTruthy r then r else none
        else none)

/-- Number of distinct component ids occurring in the installation records;
this bounds the depth of the recursion of `find_ultimate_bike_id`. -/
def numDistinctComponents (installs : List Installation) : Nat :=
  (installs.map (fun i => i.component_id)).toFinset.card

/-- `find_ultimate_bike_id` itself: the fuel `numDistinctComponents + 1`
is proved sufficient below (`findUB_fuel_ge`), so this is the value the
unbounded Python recursion computes. -/
def find_ultimate_bike_id (installs : List Installation) (cid : String) : Option String :=
  findUB installs (numDistinctComponents installs + 1) cid []

/-- Specification-side relation: the component `cid` is connected to the bike
`b` by a chain of zero or more "mounted on component" installation records
terminating in a "mounted on bike" record.  The list collects the component
ids visited along the chain (starting with `cid`).  "Non-null" ids are
rendered as Python truthiness (present and non-empty), which is the test the
code performs. -/
inductive ChainTo (installs : List Installation) : String → List String → String → Prop where
  | direct {cid b : String} {inst : Installation} :
      inst ∈ installs → inst.component_id = cid → inst.target_type = "bike" →
      inst.bike_id = some b → b ≠ "" → ChainTo installs cid [cid] b
  | step {cid t b : String} {p : List String} {inst : Installation} :
      inst ∈ installs → inst.component_id = cid → inst.target_type = "component" →
      inst.target_id = some t → t ≠ "" → ChainTo installs t p b →
      ChainTo installs cid (cid :: p) b

theorem chainTo_head {installs : List Installation} {cid : String} {p : List String}
    {b : String} (h : ChainTo installs cid p b) : ∃ tl, p = cid :: tl := by
  cases h with
  | direct _ _ _ _ _ => exact ⟨[], rfl⟩
  | step _ _ _ _ _ _ => exact ⟨_, rfl⟩

theorem chainTo_mem_componentIds {installs : List Installation} {cid : String}
    {p : List String} {b : String} (h : ChainTo installs cid p b) :
    ∀ x ∈ p, x ∈ installs.map (fun i => i.component_id) := by
  induction h with
  | direct hmem hcid _ _ _ =>
    intro x hx
    simp only [List.mem_singleton] at hx
    subst hx
    exact List.mem_map.mpr ⟨_, hmem, hcid⟩
  | step hmem hcid _ _ _ _ ih =>
    intro x hx
    rcases List.mem_cons.mp hx with h1 | h2
    · subst h1; exact List.mem_map.mpr ⟨_, hmem, hcid⟩
    · exact ih x h2

/-- The body of the per-installation step of the walk, named for reasoning:
`visited` is the already-extended visited set passed to recursive calls. -/
def findUBElem (installs : List Installation) (fuel : Nat) (visited : List String)
    (inst : Installation) : Option String :=
  if inst.target_type == "bike" && optStrTruthy inst.bike_id then inst.bike_id
  else if inst.target_type == "component" && optStrTruthy inst.target_id then
    let r := findUB installs fuel (inst.target_id.getD "") visited
    if optStrTruthy r then r else none
  else none

theorem findUB_succ (installs : List Installation) (fuel : Nat) (cid : String)
    (visited : List String) :
    findUB installs (fuel + 1) cid visited =
      if visited.contains cid then none
      else (installs.filter (fun i => i.component_id == cid)).findSome?
        (findUBElem installs fuel (cid :: visited)) := rfl

theorem findSome?_eq_some_exists {α β : Type} (f : α → Option β) :
    ∀ (l : List α) (b : β), l.findSome? f = some b → ∃ a ∈ l, f a = some b := by
  intro l
  induction l with
  | nil => intro b h; simp [List.findSome?] at h
  | cons a l ih =>
    intro b h
    rw [List.findSome?_cons] at h
    cases hfa : f a with
    | some c =>
      rw [hfa] at h
      exact ⟨a, List.mem_cons_self a l, by rw [hfa]; exact h⟩
    | none =>
      rw [hfa] at h
      obtain ⟨a', ha', hfa'⟩ := ih b h
      exact ⟨a', List.mem_cons_of_mem _ ha', hfa'⟩

theorem findSome?_isSome_of_mem {α β : Type} (f : α → Option β) :
    ∀ (l : List α) (a : α), a ∈ l → (f a).isSome → (l.findSome? f).isSome := by
  intro l
  induction l with
  | nil => intro a ha; simp at ha
  | cons h l ih =>
    intro a ha hsome
    rw [List.findSome?_cons]
    cases hfh : f h with
    | some c => simp
    | none =>
      rcases List.mem_cons.mp ha with rfl | ha'
      · rw [hfh] at hsome; simp at hsome
      · exact ih a ha' hsome

theorem findSome?_congr {α β : Type} (f g : α → Option β) :
    ∀ (l : List α), (∀ a ∈ l, f a = g a) → l.findSome? f = l.findSome? g := by
  intro l
  induction l with
  | nil => intro _; rfl
  | cons a l ih =>
    intro h
    rw [List.findSome?_cons, List.findSome?_cons, h a (List.mem_cons_self a l),
      ih (fun x hx => h x (List.mem_cons_of_mem _ hx))]

theorem findUB_ne_empty (installs : List Installation) (fuel : Nat) (cid : String)
    (visited : List String) (b : String)
    (h : findUB installs fuel cid visited = some b) : b ≠ "" := by
  cases fuel with
  | zero => simp [findUB] at h
  | succ f =>
    rw [findUB_succ] at h
    by_cases hv : visited.contains cid = true
    · rw [if_pos hv] at h; simp at h
    · rw [if_neg hv] at h
      obtain ⟨inst, _, helem⟩ := findSome?_eq_some_exists _ _ _ h
      unfold findUBElem at helem
      by_cases h1 : (inst.target_type == "bike" && optStrTruthy inst.bike_id) = true
      · rw [if_pos h1] at helem
        have := (Bool.and_eq_true _ _).mp h1
        rw [helem] at this
        simpa [optStrTruthy] using this.2
      · rw [if_neg h1] at helem
        by_cases h2 : (inst.target_type == "component" && optStrTruthy inst.target_id) = true
        · rw [if_pos h2] at helem
          by_cases h3 : optStrTruthy (findUB installs f (inst.target_id.getD "") (cid :: visited)) = true
          · rw [if_pos h3] at helem
            rw [helem] at h3
            simpa [optStrTruthy] using h3
          · rw [if_neg h3] at helem; exact absurd helem (by simp)
        · rw [if_neg h2] at helem; exact absurd helem (by simp)

/-- Soundness of the walk: a returned bike id is witnessed by an actual chain
of installation records, and that chain repeats no component id and avoids
the visited set. -/
theorem findUB_sound (installs : List Installation) :
    ∀ (fuel : Nat) (cid : String) (visited : List String) (b : String),
      findUB installs fuel cid visited = some b →
      ∃ p, ChainTo installs cid p b ∧ p.Nodup ∧ ∀ x ∈ p, x ∉ visited := by
  intro fuel
  induction fuel with
  | zero => intro cid visited b h; simp [findUB] at h
  | succ f ih =>
    intro cid visited b h
    rw [findUB_succ] at h
    by_cases hv : visited.contains cid = true
    · rw [if_pos hv] at h; simp at h
    · rw [if_neg hv] at h
      have hcv : cid ∉ visited := fun hmem => hv (List.elem_iff.mpr hmem)
      obtain ⟨inst, hmemf, helem⟩ := findSome?_eq_some_exists _ _ _ h
      obtain ⟨hinst, hq⟩ := List.mem_filter.mp hmemf
      have hcid : inst.component_id = cid := by simpa using hq
      unfold findUBElem at helem
      by_cases h1 : (inst.target_type == "bike" && optStrTruthy inst.bike_id) = true
      · rw [if_pos h1] at helem
        obtain ⟨htt, hbt⟩ := (Bool.and_eq_true _ _).mp h1
        have htt' : inst.target_type = "bike" := by simpa using htt
        have hbne : b ≠ "" := by
          rw [helem] at hbt; simpa [optStrTruthy] using hbt
        refine ⟨[cid], ChainTo.direct hinst hcid htt' helem hbne, by simp, ?_⟩
        intro x hx
        simp only [List.mem_singleton] at hx
        subst hx; exact hcv
      · rw [if_neg h1] at helem
        by_cases h2 : (inst.target_type == "component" && optStrTruthy inst.target_id) = true
        · rw [if_pos h2] at helem
          obtain ⟨htt, htgt⟩ := (Bool.and_eq_true _ _).mp h2
          have htt' : inst.target_type = "component" := by simpa using htt
          by_cases h3 : optStrTruthy (findUB installs f (inst.target_id.getD "") (cid :: visited)) = true
          · rw [if_pos h3] at helem
            obtain ⟨p', hch', hnd', hnv'⟩ := ih _ _ _ helem
            cases htid : inst.target_id with
            | none => rw [htid] at htgt; simp [optStrTruthy] at htgt
            | some t =>
              have htne : t ≠ "" := by rw [htid] at htgt; simpa [optStrTruthy] using htgt
              rw [htid] at hch'
              simp only [Option.getD_some] at hch'
              have hcad : cid ∉ p' := fun hc => (hnv' cid hc) (List.mem_cons_self _ _)
              refine ⟨cid :: p', ChainTo.step hinst hcid htt' htid htne hch',
                List.nodup_cons.mpr ⟨hcad, hnd'⟩, ?_⟩
              intro x hx
              rcases List.mem_cons.mp hx with rfl | hx'
              · exact hcv
              · exact fun hxv => (hnv' x hx') (List.mem_cons_of_mem _ hxv)
          · rw [if_neg h3] at helem; exact absurd helem (by simp)
        · rw [if_neg h2] at helem; exact absurd helem (by simp)

/-- Completeness of the walk: any chain with pairwise-distinct component ids
avoiding the visited set is found, provided the fuel covers its length. -/
theorem findUB_complete (installs : List Installation) {p : List String} {cid b : String}
    (hch : ChainTo installs cid p b) :
    ∀ (visited : List String) (fuel : Nat), p.Nodup → (∀ x ∈ p, x ∉ visited) →
      p.length ≤ fuel → (findUB installs fuel cid visited).isSome := by
  induction hch with
  | @direct cid b inst hmem hcid htt hbid hbne =>
    intro visited fuel hnd hnv hlen
    obtain ⟨f, rfl⟩ : ∃ f, fuel = f + 1 := by
      cases fuel with
      | zero => simp at hlen
      | succ f => exact ⟨f, rfl⟩
    rw [findUB_succ]
    have hcv : ¬ visited.contains cid = true :=
      fun hc => (hnv cid (by simp)) (List.elem_iff.mp hc)
    rw [if_neg hcv]
    refine findSome?_isSome_of_mem _ _ inst (List.mem_filter.mpr ⟨hmem, by simp [hcid]⟩) ?_
    unfold findUBElem
    rw [if_pos (by simp [htt, hbid, optStrTruthy, hbne]), hbid]
    simp
  | @step cid t b p' inst hmem hcid htt htid htne hch' ih =>
    intro visited fuel hnd hnv hlen
    obtain ⟨f, rfl⟩ : ∃ f, fuel = f + 1 := by
      cases fuel with
      | zero => simp at hlen
      | succ f => exact ⟨f, rfl⟩
    rw [findUB_succ]
    have hcv : ¬ visited.contains cid = true :=
      fun hc => (hnv cid (by simp)) (List.elem_iff.mp hc)
    rw [if_neg hcv]
    refine findSome?_isSome_of_mem _ _ inst (List.mem_filter.mpr ⟨hmem, by simp [hcid]⟩) ?_
    unfold findUBElem
    have h1 : (inst.target_type == "bike" && optStrTruthy inst.bike_id) = false := by
      simp [htt]
    rw [if_neg (by simp [h1])]
    rw [if_pos (by simp [htt, htid, optStrTruthy, htne])]
    have hr : (findUB installs f (inst.target_id.getD "") (cid :: visited)).isSome := by
      rw [htid]
      simp only [Option.getD_some]
      refine ih (cid :: visited) f (List.nodup_cons.mp hnd).2 ?_ (by simpa using hlen)
      intro x hx
      intro hxm
      rcases List.mem_cons.mp hxm with rfl | hxv
      · exact (List.nodup_cons.mp hnd).1 hx
      · exact (hnv x (List.mem_cons_of_mem _ hx)) hxv
    obtain ⟨rb, hrb⟩ := Option.isSome_iff_exists.mp hr
    have hrt : optStrTruthy (findUB installs f (inst.target_id.getD "") (cid :: visited)) = true := by
      rw [hrb]
      simpa [optStrTruthy] using findUB_ne_empty _ _ _ _ _ hrb
    rw [if_pos hrt]
    exact hr

/-- From any node on a chain, a sub-chain to the same bike exists. -/
theorem chainTo_suffix {installs : List Installation} {x : String} {q : List String}
    {b : String} (h : ChainTo installs x q b) :
    ∀ y ∈ q, ∃ q', ChainTo installs y q' b ∧ q'.length ≤ q.length ∧ ∀ z ∈ q', z ∈ q := by
  induction h with
  | @direct c bb inst hmem hcid htt hbid hbne =>
    intro y hy
    simp only [List.mem_singleton] at hy
    subst hy
    exact ⟨[y], ChainTo.direct hmem hcid htt hbid hbne, le_refl _, fun z hz => hz⟩
  | @step c t bb p' inst hmem hcid htt htid htne hch' ih =>
    intro y hy
    rcases List.mem_cons.mp hy with rfl | hy'
    · exact ⟨y :: p', ChainTo.step hmem hcid htt htid htne hch', le_refl _, fun z hz => hz⟩
    · obtain ⟨q', hq', hlen, hsub⟩ := ih y hy'
      exact ⟨q', hq', Nat.le_succ_of_le hlen,
        fun z hz => List.mem_cons_of_mem _ (hsub z hz)⟩

/-- Any chain can be shortcut to a chain visiting pairwise-distinct ids. -/
theorem chainTo_shortcut (installs : List Installation) :
    ∀ (n : Nat) (p : List String) (cid b : String), p.length ≤ n →
      ChainTo installs cid p b →
      ∃ q, ChainTo installs cid q b ∧ q.Nodup ∧ q.length ≤ p.length ∧ ∀ z ∈ q, z ∈ p := by
  intro n
  induction n with
  | zero =>
    intro p cid b hlen hch
    obtain ⟨tl, rfl⟩ := chainTo_head hch
    simp at hlen
  | succ n ih =>
    intro p cid b hlen hch
    cases hch with
    | direct hmem hcid htt hbid hbne =>
      exact ⟨[cid], ChainTo.direct hmem hcid htt hbid hbne, by simp, le_refl _,
        fun z hz => hz⟩
    | @step _ t _ p' inst hmem hcid htt htid htne hch' =>
      have hlen' : p'.length ≤ n := by simpa using hlen
      obtain ⟨q', hq', hnd', hql, hqs⟩ := ih p' t b hlen' hch'
      by_cases hc : cid ∈ q'
      · obtain ⟨q'', hq'', hlen'', hsub''⟩ := chainTo_suffix hq' cid hc
        have hq''n : q''.length ≤ n := le_trans hlen'' (le_trans hql hlen')
        obtain ⟨q, hq, hnd, hqlen, hqsub⟩ := ih q'' cid b hq''n hq''
        refine ⟨q, hq, hnd, ?_, ?_⟩
        · calc q.length ≤ q''.length := hqlen
            _ ≤ q'.length := hlen''
            _ ≤ p'.length := hql
            _ ≤ (cid :: p').length := Nat.le_succ_of_le (le_refl _)
        · exact fun z hz => List.mem_cons_of_mem _ (hqs _ (hsub'' _ (hqsub z hz)))
      · refine ⟨cid :: q', ChainTo.step hmem hcid htt htid htne hq',
          List.nodup_cons.mpr ⟨hc, hnd'⟩, by simpa using hql, ?_⟩
        intro z hz
        rcases List.mem_cons.mp hz with rfl | hz'
        · exact List.mem_cons_self _ _
        · exact List.mem_cons_of_mem _ (hqs _ hz')

/-- Number of component ids not yet visited: the decreasing measure of the
Python recursion. -/
def freeB (installs : List Installation) (visited : List String) : Nat :=
  ((installs.map (fun i => i.component_id)).toFinset \ visited.toFinset).card

/-- One extra unit of fuel beyond the measure does not change the result. -/
theorem findUB_fuel_succ (installs : List Installation) :
    ∀ (fuel : Nat) (cid : String) (visited : List String),
      freeB installs visited < fuel →
      findUB installs fuel cid visited = findUB installs (fuel + 1) cid visited := by
  intro fuel
  induction fuel with
  | zero => intro _ _ h; exact absurd h (Nat.not_lt_zero _)
  | succ f ih =>
    intro cid visited h
    rw [findUB_succ, findUB_succ]
    by_cases hv : visited.contains cid = true
    · rw [if_pos hv, if_pos hv]
    · rw [if_neg hv, if_neg hv]
      rcases hfe : installs.filter (fun i => i.component_id == cid) with _ | ⟨i0, rest⟩
      · rw [hfe]; rfl
      · have hcid_mem : cid ∈ installs.map (fun i => i.component_id) := by
          have hi0 : i0 ∈ installs.filter (fun i => i.component_id == cid) := by
            rw [hfe]; exact List.mem_cons_self _ _
          obtain ⟨hin, hq⟩ := List.mem_filter.mp hi0
          exact List.mem_map.mpr ⟨i0, hin, by simpa using hq⟩
        have hcv : cid ∉ visited := fun hmem => hv (List.elem_iff.mpr hmem)
        have hfree : freeB installs (cid :: visited) < f := by
          unfold freeB at h ⊢
          have hmemd : cid ∈ (installs.map (fun i => i.component_id)).toFinset \ visited.toFinset := by
            simp only [Finset.mem_sdiff, List.mem_toFinset]
            exact ⟨hcid_mem, hcv⟩
          have hpos : 0 < ((installs.map (fun i => i.component_id)).toFinset \ visited.toFinset).card :=
            Finset.card_pos.mpr ⟨cid, hmemd⟩
          have heq : (installs.map (fun i => i.component_id)).toFinset \ (cid :: visited).toFinset
              = ((installs.map (fun i => i.component_id)).toFinset \ visited.toFinset).erase cid := by
            ext x
            simp only [List.toFinset_cons, Finset.mem_sdiff, Finset.mem_insert,
              Finset.mem_erase, List.mem_toFinset]
            tauto
          rw [heq, Finset.card_erase_of_mem hmemd]
          omega
        apply findSome?_congr
        intro a _
        unfold findUBElem
        by_cases h1 : (a.target_type == "bike" && optStrTruthy a.bike_id) = true
        · rw [if_pos h1, if_pos h1]
        · rw [if_neg h1, if_neg h1]
          by_cases h2 : (a.target_type == "component" && optStrTruthy a.target_id) = true
          · rw [if_pos h2, if_pos h2]
            rw [← ih (a.target_id.getD "") (cid :: visited) hfree]
          · rw [if_neg h2, if_neg h2]

/-- Fuel beyond the measure is irrelevant: the Python recursion terminates and
computes the value at the canonical fuel. -/
theorem findUB_fuel_ge (installs : List Installation) :
    ∀ (fuel₂ fuel₁ : Nat) (cid : String) (visited : List String),
      freeB installs visited < fuel₁ → fuel₁ ≤ fuel₂ →
      findUB installs fuel₁ cid visited = findUB installs fuel₂ cid visited := by
  intro fuel₂
  induction fuel₂ with
  | zero =>
    intro fuel₁ cid visited _ hle
    have : fuel₁ = 0 := Nat.le_zero.mp hle
    rw [this]
  | succ f ih =>
    intro fuel₁ cid visited h hle
    by_cases heq : fuel₁ = f + 1
    · rw [heq]
    · have hle' : fuel₁ ≤ f := by omega
      calc findUB installs fuel₁ cid visited
          = findUB installs f cid visited := ih fuel₁ cid visited h hle'
        _ = findUB installs (f + 1) cid visited :=
            findUB_fuel_succ installs f cid visited (lt_of_lt_of_le h hle')

theorem freeB_nil (installs : List Installation) :
    freeB installs [] = numDistinctComponents installs := by
  unfold freeB numDistinctComponents
  simp

/-- C1: for every set of installation records and every starting component,
`find_ultimate_bike_id` returns some bike id exactly when the component is
connected to a bike by a chain of zero or more "mounted on component" records
terminating in a "mounted on bike" record (the record chosen at each node is
the first usable one in record order, which the algorithm realises by
scanning in record order and backtracking); the returned id is the terminal
bike id of an actual chain, and if no chain reaches a bike it returns null. -/
theorem c1_find_ultimate_bike_id_resolves_chains (installs : List Installation)
    (cid : String) :
    ((∃ b p, ChainTo installs cid p b) → (find_ultimate_bike_id installs cid).isSome) ∧
    (∀ b, find_ultimate_bike_id installs cid = some b →
      ∃ p, ChainTo installs cid p b ∧ p.Nodup) ∧
    ((∀ b p, ¬ ChainTo installs cid p b) → find_ultimate_bike_id installs cid = none) := by
  refine ⟨?_, ?_, ?_⟩
  · rintro ⟨b, p, hch⟩
    obtain ⟨q, hq, hnd, _, _⟩ :=
      chainTo_shortcut installs p.length p cid b (le_refl _) hch
    have hqsub : q.toFinset ⊆ (installs.map (fun i => i.component_id)).toFinset := by
      intro x hx
      exact List.mem_toFinset.mpr (chainTo_mem_componentIds hq x (List.mem_toFinset.mp hx))
    have hqlen : q.length ≤ numDistinctComponents installs := by
      have h1 : q.toFinset.card = q.length := List.toFinset_card_of_nodup hnd
      have h2 := Finset.card_le_card hqsub
      unfold numDistinctComponents
      omega
    exact findUB_complete installs hq [] (numDistinctComponents installs + 1) hnd
      (by simp) (Nat.le_succ_of_le hqlen)
  · intro b hb
    obtain ⟨p, hch, hnd, _⟩ := findUB_sound installs _ _ _ _ hb
    exact ⟨p, hch, hnd⟩
  · intro hnone
    cases hsome : find_ultimate_bike_id installs cid with
    | none => rfl
    | some b =>
      obtain ⟨p, hch, _, _⟩ := findUB_sound installs _ _ _ _ hsome
      exact absurd hch (hnone b p)

/-- A single installation mounting component c1 directly on bike B1. -/
def instDirectMount : Installation :=
  ⟨"i1", "u", "c1", "bike", some "B1", some "B1", none, none, [], [], []⟩

/-- Witness for C1 at a concrete input: c1 is mounted directly on B1, the
resolver finds a bike, and the returned id B1 is witnessed by a chain. -/
theorem c1_find_ultimate_bike_id_resolves_chains_witness :
    (find_ultimate_bike_id [instDirectMount] "c1").isSome ∧
    (∃ p, ChainTo [instDirectMount] "c1" p "B1" ∧ p.Nodup) := by
  constructor
  · exact (c1_find_ultimate_bike_id_resolves_chains [instDirectMount] "c1").1
      ⟨"B1", ["c1"], ChainTo.direct (List.mem_singleton_self _) rfl rfl rfl (by decide)⟩
  · exact (c1_find_ultimate_bike_id_resolves_chains [instDirectMount] "c1").2.1 "B1"
      (by decide)

/-- C3: the resolution of `find_ultimate_bike_id` is stable once the fuel
reaches the number of distinct component ids plus one (the recursion depth
bound: the visited set gains a component on each level), even in the presence
of cycles; and when no chain from the component reaches a bike — in
particular when every chain runs into a cycle — the result is null rather
than an error or divergence. -/
theorem c3_find_ultimate_bike_id_terminates (installs : List Installation)
    (cid : String) :
    (∀ fuel : Nat, numDistinctComponents installs + 1 ≤ fuel →
      findUB installs fuel cid [] = find_ultimate_bike_id installs cid) ∧
    ((∀ b p, ¬ ChainTo installs cid p b) → find_ultimate_bike_id installs cid = none) := by
  constructor
  · intro fuel hf
    unfold find_ultimate_bike_id
    exact (findUB_fuel_ge installs fuel (numDistinctComponents installs + 1) cid []
      (by rw [freeB_nil]; omega) hf).symm
  · intro hnone
    cases hsome : find_ultimate_bike_id installs cid with
    | none => rfl
    | some b =>
      obtain ⟨p, hch, _, _⟩ := findUB_sound installs _ _ _ _ hsome
      exact absurd hch (hnone b p)

/-- Mutual mounts c1 on c2 and c2 on c1: a cyclic installation graph. -/
def cyclicInstalls : List Installation :=
  [⟨"i1", "u", "c1", "component", some "c2", none, none, none, [], [], []⟩,
   ⟨"i2", "u", "c2", "component", some "c1", none, none, none, [], [], []⟩]

theorem cyclicInstalls_no_chain :
    ∀ (cid b : String) (p : List String), ¬ ChainTo cyclicInstalls cid p b := by
  intro cid b p hch
  induction hch with
  | direct hmem _ htt _ _ =>
    simp only [cyclicInstalls, List.mem_cons, List.mem_singleton] at hmem
    rcases hmem with rfl | rfl | h
    · exact absurd htt (by decide)
    · exact absurd htt (by decide)
    · simp at h
  | step _ _ _ _ _ _ ih => exact ih

/-- Witness for C3 on the cyclic example: result is fuel-stable and null. -/
theorem c3_find_ultimate_bike_id_terminates_witness :
    findUB cyclicInstalls 7 "c1" [] = find_ultimate_bike_id cyclicInstalls "c1" ∧
    find_ultimate_bike_id cyclicInstalls "c1" = none := by
  constructor
  · exact (c3_find_ultimate_bike_id_terminates cyclicInstalls "c1").1 7 (by decide)
  · exact (c3_find_ultimate_bike_id_terminates cyclicInstalls "c1").2
      (fun b p => cyclicInstalls_no_chain "c1" b p)

/-- A component object as it appears in a source JSON list.  Numeric usage
objects are open string-keyed mappings; `none` models an absent key and
`some []` an empty mapping (both falsy in Python). -/
structure SrcComponent where
  id : String
  name : String
  type : String
  notes : Option String
  user_id : String
  retired_at : Option String
  usage : Option (List (String × ℚ))
  initial_usage : Option (List (String × ℚ))
deriving DecidableEq

/-- A bike object of the bike-list document. -/
structure SrcBike where
  id : String
  name : String
  user_id : String
  default : Option Bool
  picture_attachment_id : Option String
  picture_url : Option String
  retired_at : Option String
  usage : Option (List (String × ℚ))
  strava_bike : Option (List (String × ℚ))
  components : Option (List SrcComponent)
deriving DecidableEq

/-- The loaded document set.  A missing file is loaded as `[]`;
`installations_data` is the concatenation of the `installations[]` arrays of
all component-detail documents in the order they were read. -/
structure Docs where
  bikes : List SrcBike
  components_retired : List SrcComponent
  components_notinstalled : List SrcComponent
  components_installed : List SrcComponent
  installations_data : List Installation
deriving DecidableEq

/-- Python truthiness of an optional mapping: `"k" in d and d["k"]` is true
iff the key is present with a non-empty dict. -/
def dictTruthy (o : Option (List (String × ℚ))) : Bool :=
  match o with
  | some l => !l.isEmpty
  | none => false

/-- The sentinel zero-timestamp the source API uses for "no value". -/
def sentinelTs : String := "0001-01-01T00:00:00Z"

/-- The normalization `x if x != "0001-01-01T00:00:00Z" else None` applied to
`retired_at` of components and `removed_at` of installations. -/
def normalizeTs (o : Option String) : Option String :=
  if o = some sentinelTs then none else o

/-- Output row of the `bikes` table (lines 85-96). -/
structure BikeRecord where
  id : String
  name : String
  user_id : String
  default : Bool
  picture_attachment_id : Option String
  picture_url : Option String
  retired_at : Option String
deriving DecidableEq

/-- Output row of the `components` table. -/
structure ComponentRecord where
  id : String
  name : String
  type : String
  notes : String
  user_id : String
  status : String
  bike_id : Option String
  parent_component_id : Option String
  retired_at : Option String
deriving DecidableEq

/-- Output row of the `component_usage` table. -/
structure ComponentUsageRecord where
  component_id : String
  usage_type : String
  fields : List (String × ℚ)
deriving DecidableEq

/-- Output row of the `bike_usage` table. -/
structure BikeUsageRecord where
  bike_id : String
  fields : List (String × ℚ)
deriving DecidableEq

/-- Output row of the `bike_strava` table. -/
structure BikeStravaRecord where
  bike_id : String
  fields : List (String × ℚ)
deriving DecidableEq

/-- Output row of the `installations` table (lines 282-306). -/
structure InstallationRecord where
  id : String
  user_id : String
  component_id : String
  target_type : String
  target_id : Option String
  bike_id : Option String
  added_at : Option String
  removed_at : Option String
  ride_tags : List String
  included_ride_tags : List String
  excluded_ride_tags : List String
deriving DecidableEq

def mkBikeRecord (b : SrcBike) : BikeRecord :=
  ⟨b.id, b.name, b.user_id, b.default.getD false, b.picture_attachment_id,
    b.picture_url, b.retired_at⟩

def bikesRecords (docs : Docs) : List BikeRecord :=
  docs.bikes.map mkBikeRecord

def bikeUsageRecords (docs : Docs) : List BikeUsageRecord :=
  (docs.bikes.filter (fun b => dictTruthy b.usage)).map
    (fun b => ⟨b.id, b.usage.getD []⟩)

def bikeStravaRecords (docs : Docs) : List BikeStravaRecord :=
  (docs.bikes.filter (fun b => dictTruthy b.strava_bike)).map
    (fun b => ⟨b.id, b.strava_bike.getD []⟩)

def mkInstallationRecord (i : Installation) : InstallationRecord :=
  ⟨i.id, i.user_id, i.component_id, i.target_type, i.target_id,
    (if optStrTruthy i.bike_id then i.bike_id else none),
    i.added_at, normalizeTs i.removed_at,
    i.ride_tags, i.included_ride_tags, i.excluded_ride_tags⟩

def installationsRecords (docs : Docs) : List InstallationRecord :=
  docs.installations_data.map mkInstallationRecord

/-- Immediate-parent lookup (lines 170-178 and 233-241): the first
installation record for the component with `target_type = component` yields
its `target_id`; otherwise null. -/
def findParentComponentId (installs : List Installation) (cid : String) : Option String :=
  match installs.find? (fun i => i.component_id == cid && i.target_type == "component") with
  | some i => i.target_id
  | none => none

/-- The state threaded through the component-normalization pass: emitted
component and usage records plus the sets `processed_component_ids` and
`processed_usage_ids` of the source. -/
structure NState where
  comps : List ComponentRecord
  usages : List ComponentUsageRecord
  processedIds : List String
  processedUsageKeys : List String
deriving DecidableEq

def usageKey (cid utype : String) : String := cid ++ "_" ++ utype

def keyOfUsage (u : ComponentUsageRecord) : String := usageKey u.component_id u.usage_type

/-- Usage emission with the `processed_usage_ids` dedup (lines 140-162 and
199-222): emit a `(component, usage_type)` row only if its key is new. -/
def emitUsageDedup (st : NState) (cid utype : String)
    (u : Option (List (String × ℚ))) : NState :=
  if dictTruthy u then
    if st.processedUsageKeys.contains (usageKey cid utype) then st
    else { st with usages := st.usages ++ [⟨cid, utype, u.getD []⟩],
                   processedUsageKeys := st.processedUsageKeys ++ [usageKey cid utype] }
  else st

/-- Usage emission without dedup, as done for the retired / not-installed
lists (lines 265-278). -/
def emitUsageNoDedup (st : NState) (cid utype : String)
    (u : Option (List (String × ℚ))) : NState :=
  if dictTruthy u then { st with usages := st.usages ++ [⟨cid, utype, u.getD []⟩] }
  else st

/-- Component record built for a component nested under a bike
(lines 122-136): installed, mounted directly on that bike, no parent. -/
def mkNestedComponentRecord (bikeId : String) (c : SrcComponent) : ComponentRecord :=
  ⟨c.id, c.name, c.type, c.notes.getD "", c.user_id, "installed",
    some bikeId, none, normalizeTs c.retired_at⟩

/-- Component record built for a component of one of the flat lists
(lines 181-195 and 244-262): bike and parent resolved from the
installation data. -/
def mkFlatComponentRecord (installs : List Installation) (status : String)
    (c : SrcComponent) : ComponentRecord :=
  ⟨c.id, c.name, c.type, c.notes.getD "", c.user_id, status,
    find_ultimate_bike_id installs c.id, findParentComponentId installs c.id,
    normalizeTs c.retired_at⟩

/-- Step 2 of the normalizer (lines 117-162): components nested under a bike;
skipped entirely (record and usage) when the id was already processed. -/
def processBikeComponent (bikeId : String) (st : NState) (c : SrcComponent) : NState :=
  if st.processedIds.contains c.id then st
  else
    let st1 := { st with comps := st.comps ++ [mkNestedComponentRecord bikeId c],
                         processedIds := st.processedIds ++ [c.id] }
    let st2 := emitUsageDedup st1 c.id "current" c.usage
    emitUsageDedup st2 c.id "initial" c.initial_usage

/-- Step 3 of the normalizer (lines 165-222): the flat installed list; the
component record is skipped for an already-processed id but usage rows are
always considered (with the usage-key dedup). -/
def processInstalledComponent (installs : List Installation) (st : NState)
    (c : SrcComponent) : NState :=
  let st1 :=
    if st.processedIds.contains c.id then st
    else { st with comps := st.comps ++ [mkFlatComponentRecord installs "installed" c],
                   processedIds := st.processedIds ++ [c.id] }
  let st2 := emitUsageDedup st1 c.id "current" c.usage
  emitUsageDedup st2 c.id "initial" c.initial_usage

/-- Step 4 of the normalizer (lines 229-278): retired and not-installed
components are emitted unconditionally, with status "retired" exactly when
the object occurs in the retired list, and usage rows without dedup. -/
def processRetiredNotInstalled (installs : List Installation)
    (retiredList : List SrcComponent) (st : NState) (c : SrcComponent) : NState :=
  let status := if c ∈ retiredList then "retired" else "not_installed"
  let st1 := { st with comps := st.comps ++ [mkFlatComponentRecord installs status c] }
  let st2 := emitUsageNoDedup st1 c.id "current" c.usage
  emitUsageNoDedup st2 c.id "initial" c.initial_usage

def initialNState : NState := ⟨[], [], [], []⟩

/-- The components/usage phase of `convert_to_sqlite` (lines 110-278). -/
def componentsPhase (docs : Docs) : NState :=
  let st1 := docs.bikes.foldl
    (fun st bike => (bike.components.getD []).foldl (processBikeComponent bike.id) st)
    initialNState
  let st2 := docs.components_installed.foldl
    (processInstalledComponent docs.installations_data) st1
  (docs.components_retired ++ docs.components_notinstalled).foldl
    (processRetiredNotInstalled docs.installations_data docs.components_retired) st2

theorem emitUsageDedup_comps (st : NState) (cid utype : String)
    (u : Option (List (String × ℚ))) : (emitUsageDedup st cid utype u).comps = st.comps := by
  unfold emitUsageDedup
  split
  · split
    · rfl
    · rfl
  · rfl

theorem emitUsageDedup_processedIds (st : NState) (cid utype : String)
    (u : Option (List (String × ℚ))) :
    (emitUsageDedup st cid utype u).processedIds = st.processedIds := by
  unfold emitUsageDedup
  split
  · split
    · rfl
    · rfl
  · rfl

theorem emitUsageNoDedup_comps (st : NState) (cid utype : String)
    (u : Option (List (String × ℚ))) : (emitUsageNoDedup st cid utype u).comps = st.comps := by
  unfold emitUsageNoDedup
  split
  · rfl
  · rfl

theorem emitUsageNoDedup_processedIds (st : NState) (cid utype : String)
    (u : Option (List (String × ℚ))) :
    (emitUsageNoDedup st cid utype u).processedIds = st.processedIds := by
  unfold emitUsageNoDedup
  split
  · rfl
  · rfl

theorem processBikeComponent_processedIds_mem (bid : String) (st : NState)
    (c : SrcComponent) (x : String) :
    x ∈ (processBikeComponent bid st c).processedIds ↔ x ∈ st.processedIds ∨ x = c.id := by
  unfold processBikeComponent
  by_cases h : st.processedIds.contains c.id = true
  · rw [if_pos h]
    constructor
    · intro hx; exact Or.inl hx
    · rintro (hx | rfl)
      · exact hx
      · exact List.elem_iff.mp h
  · rw [if_neg h]
    rw [emitUsageDedup_processedIds, emitUsageDedup_processedIds]
    simp [List.mem_append]

theorem processInstalledComponent_processedIds_mem (installs : List Installation)
    (st : NState) (c : SrcComponent) (x : String) :
    x ∈ (processInstalledComponent installs st c).processedIds ↔
      x ∈ st.processedIds ∨ x = c.id := by
  unfold processInstalledComponent
  rw [emitUsageDedup_processedIds, emitUsageDedup_processedIds]
  by_cases h : st.processedIds.contains c.id = true
  · rw [if_pos h]
    constructor
    · intro hx; exact Or.inl hx
    · rintro (hx | rfl)
      · exact hx
      · exact List.elem_iff.mp h
  · rw [if_neg h]
    simp [List.mem_append]

theorem foldBikeComponents_processedIds_mem (bid : String) :
    ∀ (cs : List SrcComponent) (st : NState) (x : String),
      (x ∈ (cs.foldl (processBikeComponent bid) st).processedIds) ↔
        x ∈ st.processedIds ∨ x ∈ cs.map (fun c => c.id) := by
  intro cs
  induction cs with
  | nil => intro st x; simp
  | cons c cs ih =>
    intro st x
    rw [List.foldl_cons, ih]
    rw [processBikeComponent_processedIds_mem]
    simp only [List.map_cons, List.mem_cons]
    tauto

def nestedComponents (docs : Docs) : List SrcComponent :=
  docs.bikes.flatMap (fun b => b.components.getD [])

def nestedComponentIds (docs : Docs) : List String :=
  (nestedComponents docs).map (fun c => c.id)

/-- The state after step 2 of the normalizer. -/
def bikesPhase (docs : Docs) : NState :=
  docs.bikes.foldl
    (fun st bike => (bike.components.getD []).foldl (processBikeComponent bike.id) st)
    initialNState

theorem bikesPhase_processedIds_mem (docs : Docs) (x : String) :
    x ∈ (bikesPhase docs).processedIds ↔ x ∈ nestedComponentIds docs := by
  unfold bikesPhase nestedComponentIds nestedComponents
  have main : ∀ (bs : List SrcBike) (st : NState),
      (x ∈ (bs.foldl (fun st bike =>
          (bike.components.getD []).foldl (processBikeComponent bike.id) st) st).processedIds) ↔
        x ∈ st.processedIds ∨ x ∈ (bs.flatMap (fun b => b.components.getD [])).map (fun c => c.id) := by
    intro bs
    induction bs with
    | nil => intro st; simp
    | cons b bs ih =>
      intro st
      rw [List.foldl_cons, ih, foldBikeComponents_processedIds_mem]
      simp only [List.flatMap_cons, List.map_append, List.mem_append]
      tauto
  rw [main docs.bikes initialNState]
  simp [initialNState]

/-- Invariant maintained through steps 2-3 of the normalizer: the processed
sets mirror the emitted records exactly, both dedup sets are duplicate-free,
and usage rows carry only the two usage types. -/
def Inv23 (st : NState) : Prop :=
  st.processedIds = st.comps.map (fun r => r.id) ∧
  st.processedIds.Nodup ∧
  st.processedUsageKeys = st.usages.map keyOfUsage ∧
  st.processedUsageKeys.Nodup ∧
  ∀ u ∈ st.usages, u.usage_type = "current" ∨ u.usage_type = "initial"

theorem emitUsageDedup_inv (st : NState) (cid utype : String)
    (u : Option (List (String × ℚ)))
    (hty : utype = "current" ∨ utype = "initial") (h : Inv23 st) :
    Inv23 (emitUsageDedup st cid utype u) := by
  obtain ⟨h1, h2, h3, h4, h5⟩ := h
  unfold emitUsageDedup
  by_cases hd : dictTruthy u = true
  · rw [if_pos hd]
    by_cases hc : st.processedUsageKeys.contains (usageKey cid utype) = true
    · rw [if_pos hc]; exact ⟨h1, h2, h3, h4, h5⟩
    · rw [if_neg hc]
      refine ⟨h1, h2, ?_, ?_, ?_⟩
      · show st.processedUsageKeys ++ [usageKey cid utype]
          = (st.usages ++ [(⟨cid, utype, u.getD []⟩ : ComponentUsageRecord)]).map keyOfUsage
        rw [List.map_append, ← h3]; rfl
      · show (st.processedUsageKeys ++ [usageKey cid utype]).Nodup
        have hkey : usageKey cid utype ∉ st.processedUsageKeys :=
          fun hm => hc (List.elem_iff.mpr hm)
        rw [List.nodup_append]
        refine ⟨h4, List.nodup_singleton _, ?_⟩
        intro a ha hmem
        simp only [List.mem_singleton] at hmem
        exact hkey (hmem ▸ ha)
      · intro v hv
        rcases List.mem_append.mp hv with hv1 | hv2
        · exact h5 v hv1
        · simp only [List.mem_singleton] at hv2
          subst hv2; exact hty
  · rw [if_neg hd]; exact ⟨h1, h2, h3, h4, h5⟩

theorem processBikeComponent_inv (bid : String) (st : NState) (c : SrcComponent)
    (h : Inv23 st) : Inv23 (processBikeComponent bid st c) := by
  unfold processBikeComponent
  by_cases hc : st.processedIds.contains c.id = true
  · rw [if_pos hc]; exact h
  · rw [if_neg hc]
    apply emitUsageDedup_inv _ _ _ _ (Or.inr rfl)
    apply emitUsageDedup_inv _ _ _ _ (Or.inl rfl)
    obtain ⟨h1, h2, h3, h4, h5⟩ := h
    refine ⟨?_, ?_, h3, h4, h5⟩
    · show st.processedIds ++ [c.id]
        = (st.comps ++ [mkNestedComponentRecord bid c]).map (fun r => r.id)
      rw [List.map_append, ← h1]; rfl
    · show (st.processedIds ++ [c.id]).Nodup
      have hid : c.id ∉ st.processedIds := fun hm => hc (List.elem_iff.mpr hm)
      rw [List.nodup_append]
      refine ⟨h2, List.nodup_singleton _, ?_⟩
      intro a ha hmem
      simp only [List.mem_singleton] at hmem
      exact hid (hmem ▸ ha)

theorem processInstalledComponent_inv (installs : List Installation) (st : NState)
    (c : SrcComponent) (h : Inv23 st) : Inv23 (processInstalledComponent installs st c) := by
  unfold processInstalledComponent
  apply emitUsageDedup_inv _ _ _ _ (Or.inr rfl)
  apply emitUsageDedup_inv _ _ _ _ (Or.inl rfl)
  by_cases hc : st.processedIds.contains c.id = true
  · rw [if_pos hc]; exact h
  · rw [if_neg hc]
    obtain ⟨h1, h2, h3, h4, h5⟩ := h
    refine ⟨?_, ?_, h3, h4, h5⟩
    · show st.processedIds ++ [c.id]
        = (st.comps ++ [mkFlatComponentRecord installs "installed" c]).map (fun r => r.id)
      rw [List.map_append, ← h1]; rfl
    · show (st.processedIds ++ [c.id]).Nodup
      have hid : c.id ∉ st.processedIds := fun hm => hc (List.elem_iff.mpr hm)
      rw [List.nodup_append]
      refine ⟨h2, List.nodup_singleton _, ?_⟩
      intro a ha hmem
      simp only [List.mem_singleton] at hmem
      exact hid (hmem ▸ ha)

theorem foldl_preserves_mem {α β : Type} (P : β → Prop) (f : β → α → β) :
    ∀ (l : List α), (∀ st a, a ∈ l → P st → P (f st a)) →
      ∀ st, P st → P (l.foldl f st) := by
  intro l
  induction l with
  | nil => intro _ st h; exact h
  | cons a l ih =>
    intro hf st h
    exact ih (fun st x hx => hf st x (List.mem_cons_of_mem _ hx)) _
      (hf st a (List.mem_cons_self _ _) h)

theorem initialNState_inv : Inv23 initialNState := by
  refine ⟨rfl, List.nodup_nil, rfl, List.nodup_nil, ?_⟩
  intro u hu
  simp [initialNState] at hu

theorem bikesPhase_inv (docs : Docs) : Inv23 (bikesPhase docs) := by
  unfold bikesPhase
  refine foldl_preserves_mem _ _ docs.bikes ?_ initialNState initialNState_inv
  intro st b _ h
  exact foldl_preserves_mem _ _ (b.components.getD [])
    (fun st c _ h => processBikeComponent_inv b.id st c h) st h

/-- The state after step 3 of the normalizer. -/
def installedPhase (docs : Docs) : NState :=
  docs.components_installed.foldl
    (processInstalledComponent docs.installations_data) (bikesPhase docs)

theorem installedPhase_inv (docs : Docs) : Inv23 (installedPhase docs) := by
  unfold installedPhase
  exact foldl_preserves_mem _ _ docs.components_installed
    (fun st c _ h => processInstalledComponent_inv docs.installations_data st c h)
    (bikesPhase docs) (bikesPhase_inv docs)

theorem componentsPhase_eq (docs : Docs) :
    componentsPhase docs
      = (docs.components_retired ++ docs.components_notinstalled).foldl
          (processRetiredNotInstalled docs.installations_data docs.components_retired)
          (installedPhase docs) := rfl

theorem foldInstalled_processedIds_mem (installs : List Installation) :
    ∀ (l : List SrcComponent) (st : NState) (x : String),
      (x ∈ (l.foldl (processInstalledComponent installs) st).processedIds) ↔
        x ∈ st.processedIds ∨ x ∈ l.map (fun c => c.id) := by
  intro l
  induction l with
  | nil => intro st x; simp
  | cons c l ih =>
    intro st x
    rw [List.foldl_cons, ih, processInstalledComponent_processedIds_mem]
    simp only [List.map_cons, List.mem_cons]
    tauto

theorem installedPhase_processedIds_mem (docs : Docs) (x : String) :
    x ∈ (installedPhase docs).processedIds ↔
      x ∈ nestedComponentIds docs ∨ x ∈ docs.components_installed.map (fun c => c.id) := by
  unfold installedPhase
  rw [foldInstalled_processedIds_mem, bikesPhase_processedIds_mem]

/-- The usage rows step 4 emits for one retired / not-installed component. -/
def flatUsageRows (c : SrcComponent) : List ComponentUsageRecord :=
  (if dictTruthy c.usage then [⟨c.id, "current", c.usage.getD []⟩] else []) ++
  (if dictTruthy c.initial_usage then [⟨c.id, "initial", c.initial_usage.getD []⟩] else [])

theorem processRetiredNotInstalled_comps (installs : List Installation)
    (retiredL : List SrcComponent) (st : NState) (c : SrcComponent) :
    (processRetiredNotInstalled installs retiredL st c).comps
      = st.comps ++ [mkFlatComponentRecord installs
          (if c ∈ retiredL then "retired" else "not_installed") c] := by
  unfold processRetiredNotInstalled
  rw [emitUsageNoDedup_comps, emitUsageNoDedup_comps]

theorem processRetiredNotInstalled_usages (installs : List Installation)
    (retiredL : List SrcComponent) (st : NState) (c : SrcComponent) :
    (processRetiredNotInstalled installs retiredL st c).usages
      = st.usages ++ flatUsageRows c := by
  unfold processRetiredNotInstalled emitUsageNoDedup flatUsageRows
  by_cases h1 : dictTruthy c.usage = true <;>
    by_cases h2 : dictTruthy c.initial_usage = true <;>
      simp [h1, h2]

theorem processRetiredNotInstalled_processedIds (installs : List Installation)
    (retiredL : List SrcComponent) (st : NState) (c : SrcComponent) :
    (processRetiredNotInstalled installs retiredL st c).processedIds = st.processedIds := by
  unfold processRetiredNotInstalled
  rw [emitUsageNoDedup_processedIds, emitUsageNoDedup_processedIds]

theorem step4_comps (installs : List Installation) (retiredL : List SrcComponent) :
    ∀ (l : List SrcComponent) (st : NState),
      (l.foldl (processRetiredNotInstalled installs retiredL) st).comps
        = st.comps ++ l.map (fun c =>
            mkFlatComponentRecord installs
              (if c ∈ retiredL then "retired" else "not_installed") c) := by
  intro l
  induction l with
  | nil => intro st; simp
  | cons c l ih =>
    intro st
    rw [List.foldl_cons, ih, processRetiredNotInstalled_comps]
    simp

theorem step4_usages (installs : List Installation) (retiredL : List SrcComponent) :
    ∀ (l : List SrcComponent) (st : NState),
      (l.foldl (processRetiredNotInstalled installs retiredL) st).usages
        = st.usages ++ l.flatMap flatUsageRows := by
  intro l
  induction l with
  | nil => intro st; simp
  | cons c l ih =>
    intro st
    rw [List.foldl_cons, ih, processRetiredNotInstalled_usages]
    simp

theorem componentsPhase_comps (docs : Docs) :
    (componentsPhase docs).comps
      = (installedPhase docs).comps
        ++ (docs.components_retired ++ docs.components_notinstalled).map (fun c =>
             mkFlatComponentRecord docs.installations_data
               (if c ∈ docs.components_retired then "retired" else "not_installed") c) := by
  rw [componentsPhase_eq, step4_comps]

theorem componentsPhase_usages (docs : Docs) :
    (componentsPhase docs).usages
      = (installedPhase docs).usages
        ++ (docs.components_retired ++ docs.components_notinstalled).flatMap flatUsageRows := by
  rw [componentsPhase_eq, step4_usages]

theorem usageKey_inj (a b t u : String)
    (ht : t = "current" ∨ t = "initial") (hu : u = "current" ∨ u = "initial")
    (h : usageKey a t = usageKey b u) : a = b ∧ t = u := by
  unfold usageKey at h
  have hd : ((a ++ "_") ++ t).data = ((b ++ "_") ++ u).data := by rw [h]
  rw [String.data_append, String.data_append, String.data_append, String.data_append] at hd
  have hlen : t.data.length = u.data.length := by
    rcases ht with rfl | rfl <;> rcases hu with rfl | rfl <;> rfl
  obtain ⟨hab, htu⟩ := List.append_inj' hd hlen
  have htu' : t = u := by
    rcases ht with rfl | rfl <;> rcases hu with rfl | rfl
    · rfl
    · exact absurd htu (by decide)
    · exact absurd htu (by decide)
    · rfl
  refine ⟨?_, htu'⟩
  obtain ⟨hab', _⟩ := List.append_inj' hab rfl
  exact String.ext hab'

def flatExtraIds (docs : Docs) : List String :=
  (docs.components_retired ++ docs.components_notinstalled).map (fun c => c.id)

theorem map_id_map_mkFlat (installs : List Installation) (retiredL l : List SrcComponent) :
    (l.map (fun c => mkFlatComponentRecord installs
        (if c ∈ retiredL then "retired" else "not_installed") c)).map (fun r => r.id)
      = l.map (fun c => c.id) := by
  rw [List.map_map]
  exact List.map_congr_left (fun c _ => rfl)

/-- C2 (amended): component records are deduplicated by id across the
bike-nested lists and the flat installed list (first occurrence wins there),
but the retired and not-installed lists are emitted unconditionally; hence
each component id appears exactly once in the output whenever the ids of the
retired/not-installed lists are themselves distinct and do not collide with
the other sources. -/
theorem c2_component_dedup (docs : Docs)
    (hnd : (flatExtraIds docs).Nodup)
    (hdisj : ∀ x ∈ flatExtraIds docs,
      x ∉ nestedComponentIds docs ∧ x ∉ docs.components_installed.map (fun c => c.id)) :
    ((componentsPhase docs).comps.map (fun r => r.id)).Nodup := by
  rw [componentsPhase_comps, List.map_append, map_id_map_mkFlat]
  obtain ⟨h1, h2, _, _, _⟩ := installedPhase_inv docs
  rw [List.nodup_append]
  refine ⟨by rw [← h1]; exact h2, hnd, ?_⟩
  intro x hx1 hx2
  have hxp : x ∈ (installedPhase docs).processedIds := by rw [h1]; exact hx1
  have := (installedPhase_processedIds_mem docs x).mp hxp
  obtain ⟨hn, hi⟩ := hdisj x hx2
  tauto

/-- A component object appearing both under a bike and in the retired list. -/
def dupComp : SrcComponent :=
  ⟨"c", "Chain", "chain", none, "u", none, none, none⟩

def dupBike : SrcBike :=
  ⟨"B1", "Roadie", "u", none, none, none, none, none, none, some [dupComp]⟩

def c2exDocs : Docs := ⟨[dupBike], [dupComp], [], [], []⟩

/-- Counterexample for C2 as stated: the id "c" occurs in a bike's nested
component list and in the retired list; because the retired/not-installed
loop performs no dedup check, the output component record set contains the
id twice, not once. -/
theorem c2_component_dedup_counterexample :
    ((componentsPhase c2exDocs).comps.map (fun r => r.id)).count "c" = 2 := by decide

def c2wDocs : Docs := ⟨[dupBike], [], [], [dupComp], []⟩

/-- Witness for the amended C2: with the duplicate id confined to the
bike-nested and installed lists, dedup yields a duplicate-free output. -/
theorem c2_component_dedup_witness :
    ((componentsPhase c2wDocs).comps.map (fun r => r.id)).Nodup :=
  c2_component_dedup c2wDocs (by decide) (by decide)

/-- Every source component object the normalizer walks, in processing order. -/
def allSourceComponents (docs : Docs) : List SrcComponent :=
  nestedComponents docs ++ docs.components_installed ++
    docs.components_retired ++ docs.components_notinstalled

theorem bikesPhase_provenance (docs : Docs) :
    ∀ r ∈ (bikesPhase docs).comps, ∃ c, c ∈ allSourceComponents docs ∧
      r.id = c.id ∧ r.retired_at = normalizeTs c.retired_at := by
  unfold bikesPhase
  refine foldl_preserves_mem
    (fun st => ∀ r ∈ st.comps, ∃ c, c ∈ allSourceComponents docs ∧
      r.id = c.id ∧ r.retired_at = normalizeTs c.retired_at) _ docs.bikes ?_
    initialNState ?_
  · intro st b hb hP
    refine foldl_preserves_mem
      (fun st => ∀ r ∈ st.comps, ∃ c, c ∈ allSourceComponents docs ∧
        r.id = c.id ∧ r.retired_at = normalizeTs c.retired_at) _
      (b.components.getD []) ?_ st hP
    intro st c hc hP2
    unfold processBikeComponent
    by_cases hcont : st.processedIds.contains c.id = true
    · rw [if_pos hcont]; exact hP2
    · rw [if_neg hcont]
      intro r hr
      rw [emitUsageDedup_comps, emitUsageDedup_comps] at hr
      rcases List.mem_append.mp hr with hr1 | hr2
      · exact hP2 r hr1
      · simp only [List.mem_singleton] at hr2
        subst hr2
        refine ⟨c, ?_, rfl, rfl⟩
        have hn : c ∈ nestedComponents docs := List.mem_flatMap.mpr ⟨b, hb, hc⟩
        unfold allSourceComponents
        simp [List.mem_append, hn]
  · intro r hr
    simp [initialNState] at hr

theorem installedPhase_provenance (docs : Docs) :
    ∀ r ∈ (installedPhase docs).comps, ∃ c, c ∈ allSourceComponents docs ∧
      r.id = c.id ∧ r.retired_at = normalizeTs c.retired_at := by
  unfold installedPhase
  refine foldl_preserves_mem
    (fun st => ∀ r ∈ st.comps, ∃ c, c ∈ allSourceComponents docs ∧
      r.id = c.id ∧ r.retired_at = normalizeTs c.retired_at) _
    docs.components_installed ?_ (bikesPhase docs) (bikesPhase_provenance docs)
  intro st c hc hP
  unfold processInstalledComponent
  intro r hr
  rw [emitUsageDedup_comps, emitUsageDedup_comps] at hr
  by_cases hcont : st.processedIds.contains c.id = true
  · rw [if_pos hcont] at hr; exact hP r hr
  · rw [if_neg hcont] at hr
    rcases List.mem_append.mp hr with hr1 | hr2
    · exact hP r hr1
    · simp only [List.mem_singleton] at hr2
      subst hr2
      refine ⟨c, ?_, rfl, rfl⟩
      unfold allSourceComponents
      simp [List.mem_append, hc]

theorem componentsPhase_provenance (docs : Docs) :
    ∀ r ∈ (componentsPhase docs).comps, ∃ c, c ∈ allSourceComponents docs ∧
      r.id = c.id ∧ r.retired_at = normalizeTs c.retired_at := by
  intro r hr
  rw [componentsPhase_comps] at hr
  rcases List.mem_append.mp hr with h1 | h2
  · exact installedPhase_provenance docs r h1
  · obtain ⟨c, hc, rfl⟩ := List.mem_map.mp h2
    refine ⟨c, ?_, rfl, rfl⟩
    unfold allSourceComponents
    rcases List.mem_append.mp hc with h3 | h4
    · simp [List.mem_append, h3]
    · simp [List.mem_append, h4]

/-- C4: every emitted component record carries the `retired_at` of its source
component normalized by the sentinel rule, every emitted installation record
carries the `removed_at` of its source record normalized the same way, and
the normalization maps exactly the sentinel zero-timestamp to null while
leaving every other value unchanged. -/
theorem c4_sentinel_timestamp_normalization (docs : Docs) :
    (∀ r ∈ (componentsPhase docs).comps,
      ∃ c, c ∈ allSourceComponents docs ∧ r.id = c.id ∧
        r.retired_at = normalizeTs c.retired_at) ∧
    (∀ ir ∈ installationsRecords docs,
      ∃ i, i ∈ docs.installations_data ∧ ir.id = i.id ∧
        ir.removed_at = normalizeTs i.removed_at) ∧
    normalizeTs (some sentinelTs) = none ∧
    (∀ v : Option String, v ≠ some sentinelTs → normalizeTs v = v) := by
  refine ⟨componentsPhase_provenance docs, ?_, by simp [normalizeTs], ?_⟩
  · intro ir hir
    obtain ⟨i, hi, rfl⟩ := List.mem_map.mp hir
    exact ⟨i, hi, rfl, rfl⟩
  · intro v hv
    unfold normalizeTs
    rw [if_neg hv]

/-- A retired component and an installation record both carrying the
sentinel timestamp. -/
def sentinelComp : SrcComponent :=
  ⟨"c4", "Tire", "tire", none, "u", some sentinelTs, none, none⟩

def sentinelInst : Installation :=
  ⟨"i4", "u", "c4", "bike", some "B", some "B", some "2024-05-01T00:00:00Z",
    some sentinelTs, [], [], []⟩

def c4Docs : Docs := ⟨[], [sentinelComp], [], [], [sentinelInst]⟩

/-- Witness for C4 at a concrete input: the record emitted for a component
with sentinel `retired_at` has its `retired_at` normalized, and likewise for
an installation's `removed_at`. -/
theorem c4_sentinel_timestamp_normalization_witness :
    (∃ c, c ∈ allSourceComponents c4Docs ∧
      (mkFlatComponentRecord c4Docs.installations_data "retired" sentinelComp).id = c.id ∧
      (mkFlatComponentRecord c4Docs.installations_data "retired" sentinelComp).retired_at
        = normalizeTs c.retired_at) ∧
    (∃ i, i ∈ c4Docs.installations_data ∧
      (mkInstallationRecord sentinelInst).id = i.id ∧
      (mkInstallationRecord sentinelInst).removed_at = normalizeTs i.removed_at) := by
  constructor
  · exact (c4_sentinel_timestamp_normalization c4Docs).1 _ (by decide)
  · exact (c4_sentinel_timestamp_normalization c4Docs).2.1 _ (by decide)

theorem find?_first {α : Type} (p : α → Bool) :
    ∀ (pre : List α) (a : α) (post : List α), p a = true →
      (∀ x ∈ pre, p x = false) → (pre ++ a :: post).find? p = some a := by
  intro pre
  induction pre with
  | nil =>
    intro a post ha _
    exact List.find?_cons_of_pos _ ha
  | cons x pre ih =>
    intro a post ha hpre
    rw [List.cons_append, List.find?_cons_of_neg _ (by
      rw [hpre x (List.mem_cons_self _ _)]; simp)]
    exact ih a post ha (fun y hy => hpre y (List.mem_cons_of_mem _ hy))

/-- The update of the dedup invariant used to locate flat-installed records:
every processed id either came from the bike-nested lists or owns an emitted
record whose parent and bike were resolved from the installation data. -/
def FlatRecInv (docs : Docs) (st : NState) : Prop :=
  ∀ x ∈ st.processedIds, x ∈ nestedComponentIds docs ∨
    ∃ r ∈ st.comps, r.id = x ∧
      r.parent_component_id = findParentComponentId docs.installations_data x ∧
      r.bike_id = find_ultimate_bike_id docs.installations_data x ∧
      r.status = "installed"

theorem installedPhase_flatRecInv (docs : Docs) : FlatRecInv docs (installedPhase docs) := by
  unfold installedPhase
  refine foldl_preserves_mem (FlatRecInv docs) _ docs.components_installed ?_
    (bikesPhase docs) ?_
  · intro st c _ hP
    unfold processInstalledComponent
    intro x hx
    rw [emitUsageDedup_processedIds, emitUsageDedup_processedIds] at hx
    by_cases hcont : st.processedIds.contains c.id = true
    · rw [if_pos hcont] at hx
      rw [emitUsageDedup_comps, emitUsageDedup_comps]
      rw [if_pos hcont]
      exact hP x hx
    · rw [if_neg hcont] at hx
      rw [emitUsageDedup_comps, emitUsageDedup_comps]
      rw [if_neg hcont]
      rcases List.mem_append.mp hx with hx1 | hx2
      · rcases hP x hx1 with h | ⟨r, hr, hrest⟩
        · exact Or.inl h
        · exact Or.inr ⟨r, List.mem_append_left _ hr, hrest⟩
      · simp only [List.mem_singleton] at hx2
        subst hx2
        exact Or.inr ⟨mkFlatComponentRecord docs.installations_data "installed" c,
          List.mem_append_right _ (List.mem_singleton_self _), rfl, rfl, rfl, rfl⟩
  · intro x hx
    exact Or.inl ((bikesPhase_processedIds_mem docs x).mp hx)

/-- C5: for a component of the flat lists, `parent_component_id` is the
`target_id` of the first installation record (in record order) for that
component with `target_type = component`, and null when no such record
exists; the lookup is a single first-match scan, independent of the
recursive ultimate-bike resolution.  Conjuncts three and four exhibit the
emitted records of the flat installed list (when not superseded by a
bike-nested occurrence) and of the retired / not-installed lists. -/
theorem c5_parent_component_resolution (docs : Docs) :
    (∀ cid : String,
      (∀ i ∈ docs.installations_data,
        ¬(i.component_id = cid ∧ i.target_type = "component")) →
      findParentComponentId docs.installations_data cid = none) ∧
    (∀ (cid : String) (pre : List Installation) (inst : Installation)
        (post : List Installation),
      docs.installations_data = pre ++ inst :: post →
      inst.component_id = cid → inst.target_type = "component" →
      (∀ j ∈ pre, ¬(j.component_id = cid ∧ j.target_type = "component")) →
      findParentComponentId docs.installations_data cid = inst.target_id) ∧
    (∀ c ∈ docs.components_installed, c.id ∉ nestedComponentIds docs →
      ∃ r ∈ (componentsPhase docs).comps, r.id = c.id ∧
        r.parent_component_id = findParentComponentId docs.installations_data c.id ∧
        r.bike_id = find_ultimate_bike_id docs.installations_data c.id) ∧
    (∀ c ∈ docs.components_retired ++ docs.components_notinstalled,
      ∃ r ∈ (componentsPhase docs).comps, r.id = c.id ∧
        r.parent_component_id = findParentComponentId docs.installations_data c.id ∧
        r.bike_id = find_ultimate_bike_id docs.installations_data c.id) := by
  refine ⟨?_, ?_, ?_, ?_⟩
  · intro cid hno
    unfold findParentComponentId
    have : docs.installations_data.find?
        (fun i => i.component_id == cid && i.target_type == "component") = none := by
      rw [List.find?_eq_none]
      intro i hi
      intro hcontra
      obtain ⟨h1, h2⟩ := (Bool.and_eq_true _ _).mp hcontra
      exact hno i hi ⟨by simpa using h1, by simpa using h2⟩
    rw [this]
  · intro cid pre inst post hsplit hcid htt hpre
    unfold findParentComponentId
    rw [hsplit, find?_first _ pre inst post (by simp [hcid, htt]) ?_]
    intro x hx
    have := hpre x hx
    by_cases h1 : x.component_id = cid
    · by_cases h2 : x.target_type = "component"
      · exact absurd ⟨h1, h2⟩ this
      · simp [h1, h2]
    · simp [h1]
  · intro c hc hnn
    have hmem : c.id ∈ (installedPhase docs).processedIds := by
      rw [installedPhase_processedIds_mem]
      exact Or.inr (List.mem_map.mpr ⟨c, hc, rfl⟩)
    rcases installedPhase_flatRecInv docs c.id hmem with h | ⟨r, hr, hid, hpar, hbike, _⟩
    · exact absurd h hnn
    · refine ⟨r, ?_, hid, hpar, hbike⟩
      rw [componentsPhase_comps]
      exact List.mem_append_left _ hr
  · intro c hc
    refine ⟨mkFlatComponentRecord docs.installations_data
      (if c ∈ docs.components_retired then "retired" else "not_installed") c,
      ?_, rfl, rfl, rfl⟩
    rw [componentsPhase_comps]
    exact List.mem_append_right _ (List.mem_map.mpr ⟨c, hc, rfl⟩)

/-- c3 mounted on c4, c4 mounted on bike B2 (spec scenario). -/
def c5Comp : SrcComponent := ⟨"c3", "Cassette", "cassette", none, "u", none, none, none⟩

def c5Installs : List Installation :=
  [⟨"i1", "u", "c3", "component", some "c4", none, none, none, [], [], []⟩,
   ⟨"i2", "u", "c4", "bike", some "B2", some "B2", none, none, [], [], []⟩]

def c5Docs : Docs := ⟨[], [], [], [c5Comp], c5Installs⟩

/-- Witness for C5: the record emitted for c3 has parent c4 (the target of
the first matching installation record) and ultimate bike B2. -/
theorem c5_parent_component_resolution_witness :
    (∃ r ∈ (componentsPhase c5Docs).comps, r.id = "c3" ∧
      r.parent_component_id = findParentComponentId c5Docs.installations_data "c3" ∧
      r.bike_id = find_ultimate_bike_id c5Docs.installations_data "c3") ∧
    findParentComponentId c5Docs.installations_data "c3" = some "c4" ∧
    find_ultimate_bike_id c5Docs.installations_data "c3" = some "B2" := by
  refine ⟨?_, by decide, by decide⟩
  exact (c5_parent_component_resolution c5Docs).2.2.1 c5Comp (by decide) (by decide)

/-- Foreign-key invariant for usage rows: every emitted usage row references
an emitted component record. -/
def UInv (st : NState) : Prop :=
  ∀ u ∈ st.usages, u.component_id ∈ st.comps.map (fun r => r.id)

theorem emitUsageDedup_uinv (st : NState) (cid utype : String)
    (u : Option (List (String × ℚ))) (hc : cid ∈ st.comps.map (fun r => r.id))
    (h : UInv st) : UInv (emitUsageDedup st cid utype u) := by
  unfold emitUsageDedup
  by_cases hd : dictTruthy u = true
  · rw [if_pos hd]
    by_cases hk : st.processedUsageKeys.contains (usageKey cid utype) = true
    · rw [if_pos hk]; exact h
    · rw [if_neg hk]
      intro v hv
      rcases List.mem_append.mp hv with hv1 | hv2
      · exact h v hv1
      · simp only [List.mem_singleton] at hv2; subst hv2; exact hc
  · rw [if_neg hd]; exact h

theorem processBikeComponent_uinv (bid : String) (st : NState) (c : SrcComponent)
    (h : UInv st) : UInv (processBikeComponent bid st c) := by
  unfold processBikeComponent
  have key : ∀ st1 : NState, c.id ∈ st1.comps.map (fun r => r.id) → UInv st1 →
      UInv (emitUsageDedup (emitUsageDedup st1 c.id "current" c.usage)
        c.id "initial" c.initial_usage) := by
    intro st1 hc h1
    apply emitUsageDedup_uinv
    · rw [emitUsageDedup_comps]; exact hc
    · exact emitUsageDedup_uinv _ _ _ _ hc h1
  by_cases hcont : st.processedIds.contains c.id = true
  · rw [if_pos hcont]; exact h
  · rw [if_neg hcont]
    refine key _ ?_ ?_
    · show c.id ∈ (st.comps ++ [mkNestedComponentRecord bid c]).map (fun r => r.id)
      rw [List.map_append]
      exact List.mem_append_right _ (by simp [mkNestedComponentRecord])
    · intro v hv
      show v.component_id ∈ (st.comps ++ [mkNestedComponentRecord bid c]).map (fun r => r.id)
      rw [List.map_append]
      exact List.mem_append_left _ (h v hv)

theorem processInstalledComponent_uinv (installs : List Installation) (st : NState)
    (c : SrcComponent) (hinv : Inv23 st) (h : UInv st) :
    UInv (processInstalledComponent installs st c) := by
  unfold processInstalledComponent
  have key : ∀ st1 : NState, c.id ∈ st1.comps.map (fun r => r.id) → UInv st1 →
      UInv (emitUsageDedup (emitUsageDedup st1 c.id "current" c.usage)
        c.id "initial" c.initial_usage) := by
    intro st1 hc h1
    apply emitUsageDedup_uinv
    · rw [emitUsageDedup_comps]; exact hc
    · exact emitUsageDedup_uinv _ _ _ _ hc h1
  by_cases hcont : st.processedIds.contains c.id = true
  · rw [if_pos hcont]
    refine key st ?_ h
    rw [← hinv.1]
    exact List.elem_iff.mp hcont
  · rw [if_neg hcont]
    refine key _ ?_ ?_
    · show c.id ∈ (st.comps ++ [mkFlatComponentRecord installs "installed" c]).map (fun r => r.id)
      rw [List.map_append]
      exact List.mem_append_right _ (by simp [mkFlatComponentRecord])
    · intro v hv
      show v.component_id ∈ (st.comps ++ [mkFlatComponentRecord installs "installed" c]).map (fun r => r.id)
      rw [List.map_append]
      exact List.mem_append_left _ (h v hv)

theorem flatUsageRows_fields (c : SrcComponent) :
    ∀ v ∈ flatUsageRows c, v.component_id = c.id ∧
      (v.usage_type = "current" ∨ v.usage_type = "initial") := by
  intro v hv
  unfold flatUsageRows at hv
  rcases List.mem_append.mp hv with h1 | h2
  · split at h1
    · simp only [List.mem_singleton] at h1; subst h1; exact ⟨rfl, Or.inl rfl⟩
    · simp at h1
  · split at h2
    · simp only [List.mem_singleton] at h2; subst h2; exact ⟨rfl, Or.inr rfl⟩
    · simp at h2

theorem processRetiredNotInstalled_uinv (installs : List Installation)
    (retiredL : List SrcComponent) (st : NState) (c : SrcComponent) (h : UInv st) :
    UInv (processRetiredNotInstalled installs retiredL st c) := by
  intro v hv
  rw [processRetiredNotInstalled_usages] at hv
  rw [processRetiredNotInstalled_comps, List.map_append]
  rcases List.mem_append.mp hv with hv1 | hv2
  · exact List.mem_append_left _ (h v hv1)
  · rw [(flatUsageRows_fields c v hv2).1]
    exact List.mem_append_right _ (by simp [mkFlatComponentRecord])

theorem bikesPhase_uinv (docs : Docs) : UInv (bikesPhase docs) := by
  unfold bikesPhase
  refine foldl_preserves_mem UInv _ docs.bikes ?_ initialNState ?_
  · intro st b _ h
    exact foldl_preserves_mem UInv _ (b.components.getD [])
      (fun st c _ h => processBikeComponent_uinv b.id st c h) st h
  · intro v hv; simp [initialNState] at hv

theorem installedPhase_uinv (docs : Docs) : UInv (installedPhase docs) := by
  have : Inv23 (installedPhase docs) ∧ UInv (installedPhase docs) := by
    unfold installedPhase
    refine foldl_preserves_mem (fun st => Inv23 st ∧ UInv st) _
      docs.components_installed ?_ (bikesPhase docs)
      ⟨bikesPhase_inv docs, bikesPhase_uinv docs⟩
    intro st c _ h
    exact ⟨processInstalledComponent_inv docs.installations_data st c h.1,
      processInstalledComponent_uinv docs.installations_data st c h.1 h.2⟩
  exact this.2

theorem componentsPhase_uinv (docs : Docs) : UInv (componentsPhase docs) := by
  rw [componentsPhase_eq]
  exact foldl_preserves_mem UInv _
    (docs.components_retired ++ docs.components_notinstalled)
    (fun st c _ h =>
      processRetiredNotInstalled_uinv docs.installations_data docs.components_retired st c h)
    (installedPhase docs) (installedPhase_uinv docs)

/-- The tables `convert_to_sqlite` inserts, in source order
(lines 322-365); each insert happens only when its record set is non-empty. -/
def insertedTables (docs : Docs) : List String :=
  (if (bikesRecords docs).isEmpty then [] else ["bikes"]) ++
  (if (bikeUsageRecords docs).isEmpty then [] else ["bike_usage"]) ++
  (if (bikeStravaRecords docs).isEmpty then [] else ["bike_strava"]) ++
  (if (componentsPhase docs).comps.isEmpty then [] else ["components"]) ++
  (if (componentsPhase docs).usages.isEmpty then [] else ["component_usage"]) ++
  (if (installationsRecords docs).isEmpty then [] else ["installations"])

theorem sublist_if_singleton {α : Type} (P : Prop) [Decidable P] (t : α) :
    List.Sublist (if P then ([] : List α) else [t]) [t] := by
  split
  · exact List.nil_sublist _
  · exact List.Sublist.refl _

/-- C6 (amended): the inserts follow the fixed dependency order bikes →
bike_usage → bike_strava → components → component_usage → installations, and
the foreign keys `bike_usage.bike_id`, `bike_strava.bike_id` and
`component_usage.component_id` always reference existing rows.  (The
remaining foreign keys — `components.bike_id`, `components.parent_component_id`,
`installations.component_id`, `installations.bike_id` — can dangle, see the
counterexample.) -/
theorem c6_insertion_order_and_foreign_keys (docs : Docs) :
    List.Sublist (insertedTables docs)
      ["bikes", "bike_usage", "bike_strava", "components", "component_usage",
        "installations"] ∧
    (∀ u ∈ bikeUsageRecords docs, u.bike_id ∈ (bikesRecords docs).map (fun b => b.id)) ∧
    (∀ s ∈ bikeStravaRecords docs, s.bike_id ∈ (bikesRecords docs).map (fun b => b.id)) ∧
    (∀ u ∈ (componentsPhase docs).usages,
      u.component_id ∈ (componentsPhase docs).comps.map (fun r => r.id)) := by
  refine ⟨?_, ?_, ?_, componentsPhase_uinv docs⟩
  · have h6 := List.Sublist.append (List.Sublist.append (List.Sublist.append
      (List.Sublist.append (List.Sublist.append
        (sublist_if_singleton ((bikesRecords docs).isEmpty = true) "bikes")
        (sublist_if_singleton ((bikeUsageRecords docs).isEmpty = true) "bike_usage"))
        (sublist_if_singleton ((bikeStravaRecords docs).isEmpty = true) "bike_strava"))
        (sublist_if_singleton (((componentsPhase docs).comps).isEmpty = true) "components"))
        (sublist_if_singleton (((componentsPhase docs).usages).isEmpty = true) "component_usage"))
        (sublist_if_singleton ((installationsRecords docs).isEmpty = true) "installations")
    simpa [insertedTables] using h6
  · intro u hu
    unfold bikeUsageRecords at hu
    obtain ⟨b, hb, rfl⟩ := List.mem_map.mp hu
    unfold bikesRecords
    rw [List.map_map]
    exact List.mem_map.mpr ⟨b, (List.mem_filter.mp hb).1, rfl⟩
  · intro s hs
    unfold bikeStravaRecords at hs
    obtain ⟨b, hb, rfl⟩ := List.mem_map.mp hs
    unfold bikesRecords
    rw [List.map_map]
    exact List.mem_map.mpr ⟨b, (List.mem_filter.mp hb).1, rfl⟩

/-- A component whose installation record references bike B1, while the bike
list is empty. -/
def c6Comp : SrcComponent := ⟨"c", "Chain", "chain", none, "u", none, none, none⟩

def c6Inst : Installation :=
  ⟨"i", "u", "c", "bike", some "B1", some "B1", none, none, [], [], []⟩

def c6Docs : Docs := ⟨[], [], [], [c6Comp], [c6Inst]⟩

/-- Counterexample for C6 as stated: the emitted component record carries
`bike_id = B1`, but no bikes row exists — the foreign key dangles. -/
theorem c6_foreign_key_counterexample :
    ∃ r ∈ (componentsPhase c6Docs).comps, ∃ bid, r.bike_id = some bid ∧
      bid ∉ (bikesRecords c6Docs).map (fun b => b.id) := by
  refine ⟨mkFlatComponentRecord c6Docs.installations_data "installed" c6Comp,
    by decide, "B1", by decide, by decide⟩

/-- A bike with usage data, for exercising the bike_usage foreign key. -/
def c6wBike : SrcBike :=
  ⟨"B1", "Bike", "u", none, none, none, none, some [("distance", 7)], none, none⟩

def c6wDocs : Docs := ⟨[c6wBike], [], [], [], []⟩

/-- Witness for the amended C6 at a concrete input: the bike_usage row's
bike id references an inserted bikes row, and the insert order is the
canonical one. -/
theorem c6_insertion_order_and_foreign_keys_witness :
    "B1" ∈ (bikesRecords c6wDocs).map (fun b => b.id) ∧
    List.Sublist (insertedTables c6wDocs)
      ["bikes", "bike_usage", "bike_strava", "components", "component_usage",
        "installations"] :=
  ⟨(c6_insertion_order_and_foreign_keys c6wDocs).2.1
      ⟨"B1", [("distance", 7)]⟩ (by decide),
    (c6_insertion_order_and_foreign_keys c6wDocs).1⟩

def usagePair (u : ComponentUsageRecord) : String × String := (u.component_id, u.usage_type)

theorem emitUsageDedup_keys_mono (st : NState) (cid utype : String)
    (u : Option (List (String × ℚ))) (x : String) (hx : x ∈ st.processedUsageKeys) :
    x ∈ (emitUsageDedup st cid utype u).processedUsageKeys := by
  unfold emitUsageDedup
  by_cases hd : dictTruthy u = true
  · rw [if_pos hd]
    by_cases hk : st.processedUsageKeys.contains (usageKey cid utype) = true
    · rw [if_pos hk]; exact hx
    · rw [if_neg hk]; exact List.mem_append_left _ hx
  · rw [if_neg hd]; exact hx

theorem emitUsageDedup_key_present (st : NState) (cid utype : String)
    (u : Option (List (String × ℚ))) (hu : dictTruthy u = true) :
    usageKey cid utype ∈ (emitUsageDedup st cid utype u).processedUsageKeys := by
  unfold emitUsageDedup
  rw [if_pos hu]
  by_cases hk : st.processedUsageKeys.contains (usageKey cid utype) = true
  · rw [if_pos hk]; exact List.elem_iff.mp hk
  · rw [if_neg hk]; exact List.mem_append_right _ (List.mem_singleton_self _)

theorem processInstalledComponent_keys_mono (installs : List Installation) (st : NState)
    (c : SrcComponent) (x : String) (hx : x ∈ st.processedUsageKeys) :
    x ∈ (processInstalledComponent installs st c).processedUsageKeys := by
  unfold processInstalledComponent
  apply emitUsageDedup_keys_mono
  apply emitUsageDedup_keys_mono
  by_cases hcont : st.processedIds.contains c.id = true
  · rw [if_pos hcont]; exact hx
  · rw [if_neg hcont]; exact hx

theorem processInstalledComponent_key_present (installs : List Installation) (st : NState)
    (c : SrcComponent) :
    (dictTruthy c.usage = true →
      usageKey c.id "current" ∈ (processInstalledComponent installs st c).processedUsageKeys) ∧
    (dictTruthy c.initial_usage = true →
      usageKey c.id "initial" ∈ (processInstalledComponent installs st c).processedUsageKeys) := by
  unfold processInstalledComponent
  constructor
  · intro hu
    apply emitUsageDedup_keys_mono
    exact emitUsageDedup_key_present _ _ _ _ hu
  · intro hu
    exact emitUsageDedup_key_present _ _ _ _ hu

theorem foldInstalled_key_present (installs : List Installation) :
    ∀ (l : List SrcComponent) (st : NState) (c : SrcComponent), c ∈ l →
      (dictTruthy c.usage = true →
        usageKey c.id "current"
          ∈ (l.foldl (processInstalledComponent installs) st).processedUsageKeys) ∧
      (dictTruthy c.initial_usage = true →
        usageKey c.id "initial"
          ∈ (l.foldl (processInstalledComponent installs) st).processedUsageKeys) := by
  intro l
  induction l with
  | nil => intro st c hc; simp at hc
  | cons a l ih =>
    intro st c hc
    rw [List.foldl_cons]
    rcases List.mem_cons.mp hc with rfl | hc'
    · constructor
      · intro hu
        refine foldl_preserves_mem
          (fun st : NState => usageKey c.id "current" ∈ st.processedUsageKeys) _ l ?_ _
          ((processInstalledComponent_key_present installs st c).1 hu)
        intro st2 a2 _ h2
        exact processInstalledComponent_keys_mono installs st2 a2 _ h2
      · intro hu
        refine foldl_preserves_mem
          (fun st : NState => usageKey c.id "initial" ∈ st.processedUsageKeys) _ l ?_ _
          ((processInstalledComponent_key_present installs st c).2 hu)
        intro st2 a2 _ h2
        exact processInstalledComponent_keys_mono installs st2 a2 _ h2
    · exact ih _ c hc'

/-- From a present usage key recover an emitted usage row with that
component id and usage type. -/
theorem installedPhase_usage_of_key (docs : Docs) (cid ty : String)
    (hty : ty = "current" ∨ ty = "initial")
    (hk : usageKey cid ty ∈ (installedPhase docs).processedUsageKeys) :
    ∃ u ∈ (installedPhase docs).usages, u.component_id = cid ∧ u.usage_type = ty := by
  obtain ⟨_, _, h3, _, h5⟩ := installedPhase_inv docs
  rw [h3] at hk
  obtain ⟨u, hu, hkey⟩ := List.mem_map.mp hk
  obtain ⟨heq1, heq2⟩ := usageKey_inj u.component_id cid u.usage_type ty
    (h5 u hu) hty hkey
  exact ⟨u, hu, heq1, heq2⟩

theorem installedPhase_pairs_nodup (docs : Docs) :
    ((installedPhase docs).usages.map usagePair).Nodup := by
  obtain ⟨_, _, h3, h4, _⟩ := installedPhase_inv docs
  rw [h3] at h4
  have heq : (installedPhase docs).usages.map keyOfUsage
      = ((installedPhase docs).usages.map usagePair).map (fun p => usageKey p.1 p.2) := by
    rw [List.map_map]
    exact List.map_congr_left (fun u _ => rfl)
  rw [heq] at h4
  exact h4.of_map _

theorem flatUsageRows_pairs_nodup (c : SrcComponent) :
    ((flatUsageRows c).map usagePair).Nodup := by
  unfold flatUsageRows
  by_cases h1 : dictTruthy c.usage = true <;>
    by_cases h2 : dictTruthy c.initial_usage = true <;>
      simp [h1, h2, usagePair]

theorem usagePair_fst_of_flat (c : SrcComponent) (p : String × String)
    (hp : p ∈ (flatUsageRows c).map usagePair) : p.1 = c.id := by
  obtain ⟨v, hv, rfl⟩ := List.mem_map.mp hp
  exact (flatUsageRows_fields c v hv).1

/-- C7 (amended): usage rows emitted while processing the bike-nested and
flat installed lists are deduplicated by the `(component id, usage_type)`
key, and a component of the flat installed list has its current and initial
usage emitted even when its component record was skipped as a duplicate; the
retired / not-installed loops however bypass the dedup set, so the global
no-duplicate-pair guarantee holds only when the retired / not-installed ids
are distinct and do not collide with the other sources. -/
theorem c7_usage_dedup (docs : Docs)
    (hnd : (flatExtraIds docs).Nodup)
    (hdisj : ∀ x ∈ flatExtraIds docs,
      x ∉ nestedComponentIds docs ∧ x ∉ docs.components_installed.map (fun c => c.id)) :
    ((componentsPhase docs).usages.map usagePair).Nodup ∧
    (∀ c ∈ docs.components_installed, dictTruthy c.usage = true →
      ∃ u ∈ (componentsPhase docs).usages,
        u.component_id = c.id ∧ u.usage_type = "current") ∧
    (∀ c ∈ docs.components_installed, dictTruthy c.initial_usage = true →
      ∃ u ∈ (componentsPhase docs).usages,
        u.component_id = c.id ∧ u.usage_type = "initial") := by
  refine ⟨?_, ?_, ?_⟩
  · rw [componentsPhase_usages, List.map_append, List.nodup_append]
    refine ⟨installedPhase_pairs_nodup docs, ?_, ?_⟩
    · rw [List.map_flatMap]
      rw [List.nodup_flatMap]
      constructor
      · intro c _
        exact flatUsageRows_pairs_nodup c
      · have hpw : (docs.components_retired ++ docs.components_notinstalled).Pairwise
            (fun a b => a.id ≠ b.id) := by
          have := hnd
          unfold flatExtraIds at this
          exact (List.pairwise_map.mp this)
        refine hpw.imp ?_
        intro a b hab p hpa hpb
        exact hab ((usagePair_fst_of_flat a p hpa) ▸ (usagePair_fst_of_flat b p hpb) ▸ rfl)
    · intro p hp1 hp2
      obtain ⟨u, hu, rfl⟩ := List.mem_map.mp hp1
      have hcomp : u.component_id ∈ (installedPhase docs).comps.map (fun r => r.id) :=
        installedPhase_uinv docs u hu
      have hproc : u.component_id ∈ (installedPhase docs).processedIds := by
        rw [(installedPhase_inv docs).1]; exact hcomp
      have hsrc := (installedPhase_processedIds_mem docs _).mp hproc
      rw [List.map_flatMap] at hp2
      obtain ⟨c, hc, hpc⟩ := List.mem_flatMap.mp hp2
      have hfst : (usagePair u).1 = c.id := usagePair_fst_of_flat c _ hpc
      have hcid : u.component_id = c.id := hfst
      have hflat : c.id ∈ flatExtraIds docs := by
        unfold flatExtraIds
        exact List.mem_map.mpr ⟨c, hc, rfl⟩
      obtain ⟨hn, hi⟩ := hdisj c.id hflat
      rw [hcid] at hsrc
      tauto
  · intro c hc hu
    have hk : usageKey c.id "current" ∈ (installedPhase docs).processedUsageKeys :=
      (foldInstalled_key_present docs.installations_data docs.components_installed
        (bikesPhase docs) c hc).1 hu
    obtain ⟨u, hu', heq1, heq2⟩ :=
      installedPhase_usage_of_key docs c.id "current" (Or.inl rfl) hk
    refine ⟨u, ?_, heq1, heq2⟩
    rw [componentsPhase_usages]
    exact List.mem_append_left _ hu'
  · intro c hc hu
    have hk : usageKey c.id "initial" ∈ (installedPhase docs).processedUsageKeys :=
      (foldInstalled_key_present docs.installations_data docs.components_installed
        (bikesPhase docs) c hc).2 hu
    obtain ⟨u, hu', heq1, heq2⟩ :=
      installedPhase_usage_of_key docs c.id "initial" (Or.inr rfl) hk
    refine ⟨u, ?_, heq1, heq2⟩
    rw [componentsPhase_usages]
    exact List.mem_append_left _ hu'

/-- A component with usage data occurring in both the installed and the
retired lists. -/
def c7Comp : SrcComponent :=
  ⟨"c", "Chain", "chain", none, "u", none, some [("distance", 5)], none⟩

def c7Docs : Docs := ⟨[], [c7Comp], [], [c7Comp], []⟩

/-- Counterexample for C7 as stated: the component's current usage is emitted
once by the installed loop (with dedup) and once more by the retired loop
(which bypasses the dedup set), so the pair (c, current) occurs twice. -/
theorem c7_usage_dedup_counterexample :
    ((componentsPhase c7Docs).usages.map usagePair).count ("c", "current") = 2 := by
  decide

/-- The scenario of the claim: a bike-nested component (no usage) duplicated
in the installed list with usage data — the component record is skipped, the
usage row is still emitted. -/
def c7wComp : SrcComponent :=
  ⟨"c", "Chain", "chain", none, "u", none, some [("distance", 5)], some [("distance", 1)]⟩

def c7wBike : SrcBike :=
  ⟨"B1", "Roadie", "u", none, none, none, none, none, none,
    some [⟨"c", "Chain", "chain", none, "u", none, none, none⟩]⟩

def c7wDocs : Docs := ⟨[c7wBike], [], [], [c7wComp], []⟩

/-- Witness for the amended C7: applying the theorem to the concrete fixture
yields the usage rows of the duplicate-skipped component and a
duplicate-free pair list. -/
theorem c7_usage_dedup_witness :
    ((componentsPhase c7wDocs).usages.map usagePair).Nodup ∧
    (∃ u ∈ (componentsPhase c7wDocs).usages,
      u.component_id = "c" ∧ u.usage_type = "current") := by
  constructor
  · exact (c7_usage_dedup c7wDocs (by decide) (by decide)).1
  · exact (c7_usage_dedup c7wDocs (by decide) (by decide)).2.1 c7wComp (by decide) (by decide)

/-- Lexicographic comparison of character lists by codepoint: the order
SQLite's default BINARY collation imposes on the (ASCII) ISO timestamps. -/
def charListLtb : List Char → List Char → Bool
  | [], [] => false
  | [], _ :: _ => true
  | _ :: _, [] => false
  | a :: as, b :: bs =>
    if a.toNat < b.toNat then true
    else if b.toNat < a.toNat then false
    else charListLtb as bs

def strLtb (a b : String) : Bool := charListLtb a.data b.data

/-- SQL `MIN` over a list of non-null text values (none for the empty list). -/
def sqlMin? (l : List String) : Option String :=
  l.foldl (fun acc s =>
    match acc with
    | none => some s
    | some m => if strLtb s m then some s else some m) none

/-- SQL `MAX` over a list of non-null text values (none for the empty list). -/
def sqlMax? (l : List String) : Option String :=
  l.foldl (fun acc s =>
    match acc with
    | none => some s
    | some m => if strLtb m s then some s else some m) none

/-- SQLite `ROUND(x, 2)`: half away from zero at two decimals. -/
def round2 (q : ℚ) : ℚ :=
  if q < 0 then -((⌊(-q) * 100 + 1 / 2⌋ : ℤ) : ℚ) / 100
  else ((⌊q * 100 + 1 / 2⌋ : ℤ) : ℚ) / 100

theorem round2_eval (q : ℚ) (n : ℤ) (hq : 0 ≤ q) (h1 : (n : ℚ) ≤ q * 100 + 1 / 2)
    (h2 : q * 100 + 1 / 2 < n + 1) : round2 q = (n : ℚ) / 100 := by
  unfold round2
  rw [if_neg (not_lt.mpr hq)]
  have hfl : ⌊q * 100 + 1 / 2⌋ = n := Int.floor_eq_iff.mpr ⟨h1, by exact_mod_cast h2⟩
  rw [hfl]

/-- SQL column access on an open usage mapping: first binding of the key,
none when absent (a NULL cell). -/
def lookupField (fields : List (String × ℚ)) (k : String) : Option ℚ :=
  (fields.find? (fun p => p.1 == k)).map (fun p => p.2)

/-- A row of the `component_summary` view (lines 389-412). -/
structure SummaryRow where
  name : String
  type : String
  status : String
  bike : Option String
  added_at : Option String
  retired_at : Option String
  rides : Option ℚ
  distance_km : Option ℚ
  moving_time_hours : Option ℚ
  elevation_gain : Option ℚ
deriving DecidableEq

/-- `LEFT JOIN bikes b ON c.bike_id = b.id`, projected to the bike name. -/
def bikeNameFor (brecs : List BikeRecord) (bid : Option String) : Option String :=
  match bid with
  | none => none
  | some b => (brecs.find? (fun br => br.id == b)).map (fun br => br.name)

/-- The `MIN(added_at)` subquery of the view, per component, ignoring the
sentinel timestamp (and NULLs, which SQL MIN skips anyway). -/
def minAddedAt (irecs : List InstallationRecord) (cid : String) : Option String :=
  sqlMin? ((irecs.filter (fun i =>
    i.component_id == cid && !(i.added_at == some sentinelTs))).filterMap
      (fun i => i.added_at))

def currentUsagesFor (usages : List ComponentUsageRecord) (cid : String) :
    List ComponentUsageRecord :=
  usages.filter (fun u => u.component_id == cid && u.usage_type == "current")

/-- The view rows produced for one component record: one row per matching
current-usage row, or a single all-NULL-usage row when none matches
(LEFT JOIN semantics).  `ORDER BY` only permutes rows and is not modelled. -/
def summaryRowsForComponent (docs : Docs) (c : ComponentRecord) : List SummaryRow :=
  let bn := bikeNameFor (bikesRecords docs) c.bike_id
  let aa := minAddedAt (installationsRecords docs) c.id
  let us := currentUsagesFor (componentsPhase docs).usages c.id
  if us.isEmpty then
    [⟨c.name, c.type, c.status, bn, aa, c.retired_at, none, none, none, none⟩]
  else
    us.map (fun u =>
      ⟨c.name, c.type, c.status, bn, aa, c.retired_at,
        lookupField u.fields "rides",
        (lookupField u.fields "distance").map (fun d => round2 (d / 1000)),
        (lookupField u.fields "moving_time").map (fun m => round2 (m / 3600)),
        lookupField u.fields "elevation_gain"⟩)

def componentSummary (docs : Docs) : List SummaryRow :=
  (componentsPhase docs).comps.flatMap (summaryRowsForComponent docs)

/-- C8: every view row pairing a component with a current-usage row shows
`distance_km` as the usage distance (meters) over 1000 rounded to two
decimals and `moving_time_hours` as moving_time (seconds) over 3600 rounded
to two decimals; and on the claim's concrete figures 5000 m / 7200 s those
are exactly 5.0 km and 2.0 h. -/
theorem c8_component_summary_units (docs : Docs) :
    (∀ c ∈ (componentsPhase docs).comps,
      ∀ u ∈ (componentsPhase docs).usages,
        u.component_id = c.id → u.usage_type = "current" →
        ∃ row ∈ componentSummary docs,
          row.distance_km
            = (lookupField u.fields "distance").map (fun d => round2 (d / 1000)) ∧
          row.moving_time_hours
            = (lookupField u.fields "moving_time").map (fun m => round2 (m / 3600))) ∧
    round2 ((5000 : ℚ) / 1000) = 5 ∧
    round2 ((7200 : ℚ) / 3600) = 2 := by
  refine ⟨?_, ?_, ?_⟩
  · intro c hc u hu hcid hty
    have hmemus : u ∈ currentUsagesFor (componentsPhase docs).usages c.id := by
      unfold currentUsagesFor
      refine List.mem_filter.mpr ⟨hu, ?_⟩
      simp [hcid, hty]
    refine ⟨⟨c.name, c.type, c.status, bikeNameFor (bikesRecords docs) c.bike_id,
      minAddedAt (installationsRecords docs) c.id, c.retired_at,
      lookupField u.fields "rides",
      (lookupField u.fields "distance").map (fun d => round2 (d / 1000)),
      (lookupField u.fields "moving_time").map (fun m => round2 (m / 3600)),
      lookupField u.fields "elevation_gain"⟩, ?_, rfl, rfl⟩
    unfold componentSummary
    refine List.mem_flatMap.mpr ⟨c, hc, ?_⟩
    unfold summaryRowsForComponent
    have hne : ¬(currentUsagesFor (componentsPhase docs).usages c.id).isEmpty = true := by
      intro hemp
      rw [List.isEmpty_iff] at hemp
      rw [hemp] at hmemus
      simp at hmemus
    rw [if_neg hne]
    exact List.mem_map.mpr ⟨u, hmemus, rfl⟩
  · rw [round2_eval ((5000 : ℚ) / 1000) 500 (by norm_num) (by norm_num) (by norm_num)]
    norm_num
  · rw [round2_eval ((7200 : ℚ) / 3600) 200 (by norm_num) (by norm_num) (by norm_num)]
    norm_num

/-- Fixture: one installed component with current usage 5000 m / 7200 s. -/
def c8Comp : SrcComponent :=
  ⟨"c8", "Chain", "chain", none, "u", none,
    some [("distance", 5000), ("moving_time", 7200)], none⟩

def c8Docs : Docs := ⟨[], [], [], [c8Comp], []⟩

def c8Usage : ComponentUsageRecord :=
  ⟨"c8", "current", [("distance", 5000), ("moving_time", 7200)]⟩

/-- Witness for C8: the round-trip fixture shows 5.0 km and 2.0 hours. -/
theorem c8_component_summary_units_witness :
    ∃ row ∈ componentSummary c8Docs,
      row.distance_km = some 5 ∧ row.moving_time_hours = some 2 := by
  obtain ⟨row, hm, hd, hh⟩ := (c8_component_summary_units c8Docs).1
    (mkFlatComponentRecord c8Docs.installations_data "installed" c8Comp) (by decide)
    c8Usage (by decide) rfl rfl
  refine ⟨row, hm, ?_, ?_⟩
  · rw [hd]
    show some (round2 ((5000 : ℚ) / 1000)) = some 5
    exact congrArg some (c8_component_summary_units c8Docs).2.1
  · rw [hh]
    show some (round2 ((7200 : ℚ) / 3600)) = some 2
    exact congrArg some (c8_component_summary_units c8Docs).2.2

/-- A row of the `component_lifetime_analysis` table, restricted to the
columns the analysed properties concern (lines 419-462). -/
structure LifetimeRow where
  bike : Option String
  type : String
  total_components : Nat
  components_with_retirement_dates : Nat
  earliest_retirement : Option String
  latest_retirement : Option String
  avg_years_between_replacements : Option ℚ
deriving DecidableEq

/-- `GROUP BY bike, type` membership. -/
def groupRows (rows : List SummaryRow) (key : Option String × String) : List SummaryRow :=
  rows.filter (fun r => (r.bike, r.type) == key)

/-- The group's non-null `retired_at` values (SQL aggregates skip NULL). -/
def retiredTs (rows : List SummaryRow) : List String :=
  rows.filterMap (fun r => r.retired_at)

/-- One aggregated row (lines 420-456).  SQLite's `JULIANDAY` and `DATE` on
ISO timestamps are abstracted as the parameters `jd` and `dateOf`:
`MIN/MAX(DATE(retired_at))` compare day-precision dates while the span uses
the full-precision julian day difference, exactly as in the SQL. -/
def lifetimeRowFor (jd : String → ℚ) (dateOf : String → String)
    (rows : List SummaryRow) (key : Option String × String) : LifetimeRow :=
  let grp := groupRows rows key
  let rts := retiredTs grp
  let earliest := sqlMin? (rts.map dateOf)
  let latest := sqlMax? (rts.map dateOf)
  let avg : Option ℚ :=
    if 1 < rts.length ∧ earliest ≠ latest then
      match sqlMax? rts, sqlMin? rts with
      | some mx, some mn =>
          some (round2 ((jd mx - jd mn) / (365.25 : ℚ) / ((rts.length : ℚ) - 1)))
      | _, _ => none
    else none
  ⟨key.1, key.2, grp.length, rts.length, earliest, latest, avg⟩

/-- `component_lifetime_analysis`: one row per (bike, type) group occurring
in the summary view (`HAVING COUNT(*) > 0` never removes one, since groups
come from existing rows). -/
def componentLifetimeAnalysis (jd : String → ℚ) (dateOf : String → String)
    (docs : Docs) : List LifetimeRow :=
  ((componentSummary docs).map (fun r => (r.bike, r.type))).dedup.map
    (lifetimeRowFor jd dateOf (componentSummary docs))

theorem sqlFold_ne_none (f : Option String → String → Option String)
    (hf : ∀ m s, f (some m) s ≠ none) :
    ∀ (l : List String) (m : String), l.foldl f (some m) ≠ none := by
  intro l
  induction l with
  | nil => intro m; simp
  | cons b l ih =>
    intro m
    rw [List.foldl_cons]
    cases hfb : f (some m) b with
    | none => exact absurd hfb (hf m b)
    | some m2 => exact ih m2

theorem sqlMax?_ne_none (l : List String) (h : l ≠ []) : sqlMax? l ≠ none := by
  unfold sqlMax?
  cases l with
  | nil => exact absurd rfl h
  | cons a l =>
    rw [List.foldl_cons]
    refine sqlFold_ne_none _ ?_ l a
    intro m s
    by_cases hms : strLtb m s = true
    · show (if strLtb m s then some s else some m) ≠ none
      rw [if_pos hms]; simp
    · show (if strLtb m s then some s else some m) ≠ none
      rw [if_neg hms]; simp

theorem sqlMin?_ne_none (l : List String) (h : l ≠ []) : sqlMin? l ≠ none := by
  unfold sqlMin?
  cases l with
  | nil => exact absurd rfl h
  | cons a l =>
    rw [List.foldl_cons]
    refine sqlFold_ne_none _ ?_ l a
    intro m s
    by_cases hms : strLtb s m = true
    · show (if strLtb s m then some s else some m) ≠ none
      rw [if_pos hms]; simp
    · show (if strLtb s m then some s else some m) ≠ none
      rw [if_neg hms]; simp

/-- C9 (amended): in every produced lifetime-analysis row the aggregate
`avg_years_between_replacements` is non-null exactly when the group counts
more than one dated retirement and the earliest and latest retirement dates
differ; in that case it equals the span between latest and earliest
retirement timestamps in years divided by (dated retirements − 1) — rounded
to two decimals, the rounding being what the claim text omits (see the
counterexample); in all other cases the aggregate is null and the row is
still produced. -/
theorem c9_lifetime_replacement_interval (jd : String → ℚ) (dateOf : String → String)
    (docs : Docs) (key : Option String × String)
    (hkey : key ∈ ((componentSummary docs).map (fun r => (r.bike, r.type))).dedup) :
    lifetimeRowFor jd dateOf (componentSummary docs) key
      ∈ componentLifetimeAnalysis jd dateOf docs ∧
    ((lifetimeRowFor jd dateOf (componentSummary docs) key).avg_years_between_replacements
        ≠ none ↔
      (1 < (retiredTs (groupRows (componentSummary docs) key)).length ∧
        sqlMin? ((retiredTs (groupRows (componentSummary docs) key)).map dateOf)
          ≠ sqlMax? ((retiredTs (groupRows (componentSummary docs) key)).map dateOf))) ∧
    (∀ mx mn,
      sqlMax? (retiredTs (groupRows (componentSummary docs) key)) = some mx →
      sqlMin? (retiredTs (groupRows (componentSummary docs) key)) = some mn →
      1 < (retiredTs (groupRows (componentSummary docs) key)).length →
      sqlMin? ((retiredTs (groupRows (componentSummary docs) key)).map dateOf)
        ≠ sqlMax? ((retiredTs (groupRows (componentSummary docs) key)).map dateOf) →
      (lifetimeRowFor jd dateOf (componentSummary docs) key).avg_years_between_replacements
        = some (round2 ((jd mx - jd mn) / (365.25 : ℚ)
            / (((retiredTs (groupRows (componentSummary docs) key)).length : ℚ) - 1)))) := by
  have havg : (lifetimeRowFor jd dateOf (componentSummary docs) key).avg_years_between_replacements
      = (if 1 < (retiredTs (groupRows (componentSummary docs) key)).length ∧
            sqlMin? ((retiredTs (groupRows (componentSummary docs) key)).map dateOf)
              ≠ sqlMax? ((retiredTs (groupRows (componentSummary docs) key)).map dateOf) then
          match sqlMax? (retiredTs (groupRows (componentSummary docs) key)),
              sqlMin? (retiredTs (groupRows (componentSummary docs) key)) with
          | some mx, some mn =>
              some (round2 ((jd mx - jd mn) / (365.25 : ℚ)
                / (((retiredTs (groupRows (componentSummary docs) key)).length : ℚ) - 1)))
          | _, _ => none
        else none) := rfl
  refine ⟨List.mem_map.mpr ⟨key, hkey, rfl⟩, ?_, ?_⟩
  · rw [havg]
    constructor
    · intro hne
      by_cases hcond : 1 < (retiredTs (groupRows (componentSummary docs) key)).length ∧
          sqlMin? ((retiredTs (groupRows (componentSummary docs) key)).map dateOf)
            ≠ sqlMax? ((retiredTs (groupRows (componentSummary docs) key)).map dateOf)
      · exact hcond
      · rw [if_neg hcond] at hne
        exact absurd rfl hne
    · intro hcond
      rw [if_pos hcond]
      have hnonnil : retiredTs (groupRows (componentSummary docs) key) ≠ [] := by
        intro hnil
        rw [hnil] at hcond
        simp at hcond
      obtain ⟨mx, hmx⟩ := Option.ne_none_iff_exists'.mp
        (sqlMax?_ne_none _ hnonnil)
      obtain ⟨mn, hmn⟩ := Option.ne_none_iff_exists'.mp
        (sqlMin?_ne_none _ hnonnil)
      rw [hmx, hmn]
      simp
  · intro mx mn hmx hmn hlen hne
    rw [havg, if_pos ⟨hlen, hne⟩, hmx, hmn]

/-- Two retired chains one day apart (julian days 0 and 1 under `c9jd`). -/
def c9CompA : SrcComponent :=
  ⟨"ca", "Chain A", "chain", none, "u", some "2020-01-01T00:00:00Z", none, none⟩

def c9CompB : SrcComponent :=
  ⟨"cb", "Chain B", "chain", none, "u", some "2020-01-02T00:00:00Z", none, none⟩

def c9Docs : Docs := ⟨[], [c9CompA, c9CompB], [], [], []⟩

/-- Julian-day abstraction for the two timestamps of the counterexample. -/
def c9jd : String → ℚ := fun s => if s = "2020-01-02T00:00:00Z" then 1 else 0

/-- The value the claim asserts for the group: span in years over
(count − 1), unrounded. -/
def c9span : ℚ :=
  (c9jd "2020-01-02T00:00:00Z" - c9jd "2020-01-01T00:00:00Z") / (365.25 : ℚ)
    / (((2 : ℕ) : ℚ) - 1)

theorem c9span_eq : c9span = 1 / (365.25 : ℚ) := by
  have h1 : c9jd "2020-01-02T00:00:00Z" = 1 := rfl
  have h2 : c9jd "2020-01-01T00:00:00Z" = 0 := rfl
  unfold c9span
  rw [h1, h2]
  norm_num

/-- Counterexample for C9 as stated: the produced aggregate is the claim's
value rounded to two decimals, and here rounding matters — the row holds
0.0 while the unrounded span in years over (count − 1) is 1/365.25 ≠ 0. -/
theorem c9_lifetime_replacement_interval_counterexample :
    ∃ row ∈ componentLifetimeAnalysis c9jd id c9Docs,
      row.avg_years_between_replacements = some (round2 c9span) ∧
      round2 c9span = 0 ∧ c9span ≠ 0 := by
  refine ⟨lifetimeRowFor c9jd id (componentSummary c9Docs) (none, "chain"),
    List.mem_map.mpr ⟨(none, "chain"), by decide, rfl⟩, rfl, ?_, ?_⟩
  · rw [c9span_eq]
    rw [round2_eval (1 / (365.25 : ℚ)) 0 (by norm_num) (by norm_num) (by norm_num)]
    norm_num
  · rw [c9span_eq]
    norm_num

/-- Witness for the amended C9 at the concrete fixture: the group row is
produced and its aggregate is non-null since two distinct retirement dates
exist. -/
theorem c9_lifetime_replacement_interval_witness :
    lifetimeRowFor c9jd id (componentSummary c9Docs) (none, "chain")
      ∈ componentLifetimeAnalysis c9jd id c9Docs ∧
    (lifetimeRowFor c9jd id (componentSummary c9Docs)
      (none, "chain")).avg_years_between_replacements ≠ none := by
  have h := c9_lifetime_replacement_interval c9jd id c9Docs (none, "chain") (by decide)
  exact ⟨h.1, h.2.1.mpr ⟨by decide, by decide⟩⟩

/-- C10: bike records copy `retired_at` verbatim from the source — the
sentinel zero-timestamp is not normalized for bikes; the sentinel rule
applies only to component `retired_at` and installation `removed_at`. -/
theorem c10_bike_retired_at_verbatim (docs : Docs) :
    bikesRecords docs = docs.bikes.map mkBikeRecord ∧
    (∀ b ∈ docs.bikes, (mkBikeRecord b).retired_at = b.retired_at) ∧
    (∀ b ∈ docs.bikes, ∃ rb ∈ bikesRecords docs, rb.id = b.id ∧
      rb.retired_at = b.retired_at) := by
  refine ⟨rfl, fun b _ => rfl, ?_⟩
  intro b hb
  exact ⟨mkBikeRecord b, List.mem_map.mpr ⟨b, hb, rfl⟩, rfl, rfl⟩

def c10Bike : SrcBike :=
  ⟨"B9", "Old Bike", "u", none, none, none, some sentinelTs, none, none, none⟩

def c10Docs : Docs := ⟨[c10Bike], [], [], [], []⟩

/-- Witness for C10: a bike retired at the sentinel timestamp keeps it. -/
theorem c10_bike_retired_at_verbatim_witness :
    ∃ rb ∈ bikesRecords c10Docs, rb.id = "B9" ∧ rb.retired_at = some sentinelTs := by
  obtain ⟨rb, hm, hid, hret⟩ :=
    (c10_bike_retired_at_verbatim c10Docs).2.2 c10Bike (List.mem_singleton_self _)
  exact ⟨rb, hm, hid, hret⟩
